import Mathlib

/-! Sliding-window rate limiter (`rate_limiter.go`).

A shallow embedding of the package `rate_limiter`: the limiter record, the two
operations `removeExpiredRequests` and `AllowRequest`, and the properties of
their sequential behaviour.

Modelling conventions.

* A `time.Time` is read as an instant on one timeline, counted in nanoseconds:
  `Time := Int`. `Time.After` is the strict order and `Time.Add` is addition.
* A `time.Duration` is an `int64` count of nanoseconds. The unary minus of the
  source (`-r.Duration`) is the two's complement negation, written with an
  explicit reduction modulo `2^64`.
* `sync.Map` is a partial function from keys to dynamically typed values. A
  stored value is either a `RequestTimeStamps` or a value of some other type.
* The limiter is given twice. In the first form a stored slice is a sequence of
  its own, and the loop of `removeExpiredRequests` runs on that sequence. In the
  second form (`mem`) a slice is a header over a backing array in memory, the loop
  compacts the array in place and `append` writes into spare capacity or
  allocates, so that two keys can hold slices over one array. The two forms agree
  on every limiter whose slices share no array (`mem_removeExpiredRequests_abs`,
  `mem_AllowRequest_abs`), which is the case for the limiter of `NewRateLimiter`
  and is kept by both operations (`mem_NewRateLimiter_inv`,
  `mem_removeExpiredRequests_own`, `mem_AllowRequest_inv`).
* Both operations read the clock; the reading is an explicit argument, and the
  calls of a run are executed one after another.
-/

namespace rate_limiter

/-! ## Time -/

/-- An instant in nanoseconds (the reading of `time.Time`). -/
abbrev Time := Int

/-- Smallest `int64`. -/
def minInt64 : Int := -9223372036854775808

/-- Largest `int64`. -/
def maxInt64 : Int := 9223372036854775807

/-- Two's complement reduction of an integer to the `int64` range. -/
def wrapInt64 (x : Int) : Int :=
  (x + 9223372036854775808) % 18446744073709551616 - 9223372036854775808

/-- A `time.Duration`: an `int64` number of nanoseconds. -/
structure Duration where
  ns : Int
  lo : minInt64 ≤ ns
  hi : ns ≤ maxInt64

/-- Conversion of an integer to a `Duration`, as Go converts to `int64`. -/
def Duration.ofInt (x : Int) : Duration :=
  ⟨wrapInt64 x, by unfold wrapInt64 minInt64; omega, by unfold wrapInt64 maxInt64; omega⟩

/-- The unary minus on `Duration` (`-d` on an `int64`). -/
def Duration.neg (d : Duration) : Duration := Duration.ofInt (-d.ns)

/-- The method `Time.Add`. -/
def Time.Add (t : Time) (d : Duration) : Time := t + d.ns

/-- The method `Time.After`: `t.After(u)` reports whether `t` is after `u`. -/
def Time.After (t u : Time) : Bool := decide (u < t)

/-! ## Data model -/

/-- The type `RequestTimeStamps []time.Time`. -/
abbrev RequestTimeStamps := List Time

/-- A value held by the `sync.Map`: a `RequestTimeStamps`, or a value of any
other dynamic type (told apart by the type assertion of the source). -/
inductive Value where
  | stamps (timeStamps : RequestTimeStamps)
  | other (tag : Nat)
  deriving DecidableEq

/-- The contents of a `sync.Map` with string keys. -/
abbrev SyncMap := String → Option Value

/-- The method `sync.Map.Load`. -/
def SyncMap.Load (m : SyncMap) (key : String) : Option Value := m key

/-- The method `sync.Map.Store`. -/
def SyncMap.Store (m : SyncMap) (key : String) (value : Value) : SyncMap :=
  fun k => if k = key then some value else m k

/-- The struct `RateLimiter`. -/
structure RateLimiter where
  RequestMap : SyncMap
  Limit : Int
  Duration : rate_limiter.Duration

/-- The constructor `NewRateLimiter`: an empty map and the two settings. -/
def NewRateLimiter (limit : Int) (duration : Duration) : RateLimiter :=
  { RequestMap := fun _ => none, Limit := limit, Duration := duration }

/-! ## removeExpiredRequests -/

/-- The cutoff `time.Now().Add(-r.Duration)` of `removeExpiredRequests`: the instant
`now - d`, except for the least `int64` duration, whose negation is itself
(`window_eq_sub`). -/
def window (now : Time) (d : Duration) : Time := Time.Add now (Duration.neg d)

/-- One iteration of the loop `for _, ts := range timeStamps` at index `i`:
the state is the backing array and `validIndex`. -/
def compactStep (window : Time) (st : List Time × Nat) (i : Nat) : List Time × Nat :=
  match st.1.get? i with
  | none => st
  | some ts =>
    if Time.After ts window then (st.1.set st.2 ts, st.2 + 1) else st

/-- The whole compaction loop, from `validIndex := 0`. -/
def compact (window : Time) (timeStamps : RequestTimeStamps) : List Time × Nat :=
  (List.range timeStamps.length).foldl (compactStep window) (timeStamps, 0)

/-- The method `removeExpiredRequests`, with the clock reading `now`, on a slice that
has its backing array to itself (`mem.removeExpiredRequests` keeps the arrays). -/
def removeExpiredRequests (r : RateLimiter) (key : String) (now : Time) : RateLimiter :=
  let window := window now r.Duration
  match r.RequestMap.Load key with
  | none => r
  | some (Value.other _) => r
  | some (Value.stamps timeStamps) =>
    if timeStamps.length = 0 then r
    else
      let st := compact window timeStamps
      { r with RequestMap := r.RequestMap.Store key (Value.stamps (st.1.take st.2)) }

/-! ## AllowRequest -/

/-- The method `AllowRequest` with its two clock readings: `nowPrune` is read
inside `removeExpiredRequests`, `nowEntry` is the timestamp that is stored. The slice
of the key has its backing array to itself (`mem.AllowRequest` keeps the arrays). -/
def AllowRequestAt (r : RateLimiter) (key : String) (nowPrune nowEntry : Time) :
    Bool × RateLimiter :=
  let r1 := removeExpiredRequests r key nowPrune
  match r1.RequestMap.Load key with
  | none =>
    (true, { r1 with RequestMap := r1.RequestMap.Store key (Value.stamps [nowEntry]) })
  | some (Value.other _) => (false, r1)
  | some (Value.stamps timeStamps) =>
    if (timeStamps.length : Int) < r1.Limit then
      (true, { r1 with
        RequestMap := r1.RequestMap.Store key (Value.stamps (timeStamps ++ [nowEntry])) })
    else (false, r1)

/-- The method `AllowRequest` when both clock readings are the instant `now`. -/
def AllowRequest (r : RateLimiter) (key : String) (now : Time) : Bool × RateLimiter :=
  AllowRequestAt r key now now

/-- Consecutive `AllowRequest` calls, one after another: the results in call
order and the final limiter. -/
def runAllow (r : RateLimiter) : List (String × Time) → List Bool × RateLimiter
  | [] => ([], r)
  | (key, now) :: rest =>
    let step := AllowRequest r key now
    let tail := runAllow step.2 rest
    (step.1 :: tail.1, tail.2)

/-- A limiter made by `NewRateLimiter` whose map then receives one direct
`RequestMap.Store(key, timeStamps)`, the way the tests seed a key. -/
def seeded (limit : Int) (duration : Duration) (key : String) (timeStamps : RequestTimeStamps) :
    RateLimiter :=
  { NewRateLimiter limit duration with
    RequestMap := (NewRateLimiter limit duration).RequestMap.Store key (Value.stamps timeStamps) }

/-- The results of a run that were returned for the calls on `key`, in call order. -/
def resultsOn (key : String) (r : RateLimiter) (calls : List (String × Time)) : List Bool :=
  ((calls.zip (runAllow r calls).1).filter (fun c => decide (c.1.1 = key))).map (fun c => c.2)

/-- What one `AllowRequest` at `now` does to the value held by its own key, as a
function of that value and the two settings: the result and the value held after. -/
def keyStep (limit : Int) (d : Duration) (now : Time) : Option Value → Bool × Option Value
  | none => (true, some (Value.stamps [now]))
  | some (Value.other tag) => (false, some (Value.other tag))
  | some (Value.stamps xs) =>
    if ((xs.filter (fun ts => decide (window now d < ts))).length : Int) < limit then
      (true, some (Value.stamps (xs.filter (fun ts => decide (window now d < ts)) ++ [now])))
    else (false, some (Value.stamps (xs.filter (fun ts => decide (window now d < ts)))))

/-- A call of one of the two operations, with the key and the clock reading. -/
inductive Call where
  | allow (key : String) (now : Time)
  | prune (key : String) (now : Time)

/-- The clock reading of a call. -/
def Call.time : Call → Time
  | Call.allow _ now => now
  | Call.prune _ now => now

/-- Calls of `AllowRequest` and `removeExpiredRequests` executed one after another:
the key and time of every `AllowRequest` that returned `true`, in call order, and the
final limiter. -/
def runCalls (r : RateLimiter) : List Call → List (String × Time) × RateLimiter
  | [] => ([], r)
  | Call.prune key now :: rest => runCalls (removeExpiredRequests r key now) rest
  | Call.allow key now :: rest =>
    let step := AllowRequest r key now
    let tail := runCalls step.2 rest
    (if step.1 then (key, now) :: tail.1 else tail.1, tail.2)

/-- The timestamps held by a value of the map; none when the value is absent or is
not a timestamp sequence. -/
def stampsOf : Option Value → RequestTimeStamps
  | some (Value.stamps xs) => xs
  | _ => []

/-- How a call of a Go function ends: it returns a value, or it panics. -/
inductive Outcome (α : Type) where
  | returned (value : α)
  | panicked

/-- The outcome of a call `NewRateLimiter(limit, duration)`. The body is one `return`
of a struct literal: it checks neither argument and has no statement that can panic. -/
def NewRateLimiterCall (limit : Int) (duration : Duration) : Outcome RateLimiter :=
  Outcome.returned (NewRateLimiter limit duration)

/-- Where a call of `AllowRequest` stands between two operations on the `sync.Map`,
with the value it has loaded: before the `Load` of `removeExpiredRequests`, after it,
after the return of `removeExpiredRequests`, after the `Load` of `AllowRequest`, and
returned with its result. -/
inductive Pc where
  | start
  | pruneLoaded (value : Option Value)
  | pruned
  | loaded (value : Option Value)
  | done (result : Bool)
  deriving DecidableEq

/-- One step of a call of `AllowRequest(key)` whose clock reads `now`: the code up to
and including its next `Load` or `Store` on the map (each of them atomic), or up to its
return. The work between two map operations is local to the call, and a loaded slice
is read as the sequence it held at the `Load`: this is exact as long as no step in
between rewrites its backing array, as in a schedule in which nothing is pruned. -/
def callStep (limit : Int) (d : Duration) (key : String) (now : Time) (m : SyncMap) :
    Pc → SyncMap × Pc
  | Pc.start => (m, Pc.pruneLoaded (m.Load key))
  | Pc.pruneLoaded (some (Value.stamps timeStamps)) =>
    if timeStamps.length = 0 then (m, Pc.pruned)
    else
      let st := compact (window now d) timeStamps
      (m.Store key (Value.stamps (st.1.take st.2)), Pc.pruned)
  | Pc.pruneLoaded _ => (m, Pc.pruned)
  | Pc.pruned => (m, Pc.loaded (m.Load key))
  | Pc.loaded none => (m.Store key (Value.stamps [now]), Pc.done true)
  | Pc.loaded (some (Value.other _)) => (m, Pc.done false)
  | Pc.loaded (some (Value.stamps timeStamps)) =>
    if (timeStamps.length : Int) < limit then
      (m.Store key (Value.stamps (timeStamps ++ [now])), Pc.done true)
    else (m, Pc.done false)
  | Pc.done result => (m, Pc.done result)

/-- One of two concurrent calls. -/
inductive Who where
  | first
  | second

/-- Two concurrent calls of `AllowRequest` on one key: the shared map and the place
where each call stands. -/
structure Race where
  RequestMap : SyncMap
  first : Pc
  second : Pc

/-- The step of the scheduled call; the first call reads the clock at `t1`, the second
at `t2`. -/
def raceStep (limit : Int) (d : Duration) (key : String) (t1 t2 : Time) (s : Race) :
    Who → Race
  | Who.first =>
    let next := callStep limit d key t1 s.RequestMap s.first
    { RequestMap := next.1, first := next.2, second := s.second }
  | Who.second =>
    let next := callStep limit d key t2 s.RequestMap s.second
    { RequestMap := next.1, first := s.first, second := next.2 }

/-- An interleaving: the steps of the two calls in the order of the schedule. -/
def runRace (limit : Int) (d : Duration) (key : String) (t1 t2 : Time) (s : Race)
    (schedule : List Who) : Race :=
  schedule.foldl (raceStep limit d key t1 t2) s

/-- The value `v1` is the value `v2`, or `v2` is a timestamp sequence and `v1` is
that sequence without its entries at or before the cutoff `c`. -/
def prunedOf (c : Time) (v1 v2 : Option Value) : Prop :=
  v1 = v2 ∨ ∃ xs, v2 = some (Value.stamps xs) ∧
    v1 = some (Value.stamps (xs.filter (fun ts => decide (c < ts))))

/-! ## Slices over backing arrays

The definitions above read a stored slice as a sequence of its own. The ones below
keep the backing arrays: a slice is a header over an array, `removeExpiredRequests`
compacts that array in place, and `append` writes into spare capacity or allocates.
Two keys may then hold slices over one array. -/

namespace mem

/-- A slice header: the backing array, the index of element 0 in it, the length and
the capacity. -/
structure Slice where
  arr : Nat
  off : Nat
  len : Nat
  cap : Nat
  deriving DecidableEq

/-- A value held by the `sync.Map`: a `RequestTimeStamps` header, or a value of any
other dynamic type. -/
inductive Value where
  | stamps (timeStamps : Slice)
  | other (tag : Nat)
  deriving DecidableEq

/-- The backing arrays in memory; the position in the list is the address. -/
abbrev Heap := List (List Time)

/-- The array at address `a`. -/
def Heap.array (h : Heap) (a : Nat) : List Time := h.getD a []

/-- The elements `s[0], ..., s[len(s)-1]` of a slice. -/
def Heap.view (h : Heap) (s : Slice) : RequestTimeStamps :=
  ((h.array s.arr).drop s.off).take s.len

/-- The contents of a `sync.Map` with string keys. -/
abbrev SyncMap := String → Option Value

/-- The method `sync.Map.Load`. -/
def SyncMap.Load (m : SyncMap) (key : String) : Option Value := m key

/-- The method `sync.Map.Store`. -/
def SyncMap.Store (m : SyncMap) (key : String) (value : Value) : SyncMap :=
  fun k => if k = key then some value else m k

/-- The struct `RateLimiter`, together with the arrays its slices point into. -/
structure RateLimiter where
  Arrays : Heap
  RequestMap : SyncMap
  Limit : Int
  Duration : rate_limiter.Duration

/-- The constructor `NewRateLimiter`, called when the arrays in memory are `arrays`. -/
def NewRateLimiter (arrays : Heap) (limit : Int) (duration : rate_limiter.Duration) :
    RateLimiter :=
  { Arrays := arrays, RequestMap := fun _ => none, Limit := limit, Duration := duration }

/-- One iteration of `for _, ts := range timeStamps` at index `i`, on the backing
array of `timeStamps`: it reads `timeStamps[i]` and, when that is after the cutoff,
writes it to `timeStamps[validIndex]`. -/
def compactStep (window : Time) (off : Nat) (st : List Time × Nat) (i : Nat) :
    List Time × Nat :=
  match st.1.get? (off + i) with
  | none => st
  | some ts =>
    if Time.After ts window then (st.1.set (off + st.2) ts, st.2 + 1) else st

/-- The method `removeExpiredRequests`, with the clock reading `now`: the loop runs on
the backing array, and the header with the new length is stored. -/
def removeExpiredRequests (r : RateLimiter) (key : String) (now : Time) : RateLimiter :=
  let window := window now r.Duration
  match r.RequestMap.Load key with
  | none => r
  | some (Value.other _) => r
  | some (Value.stamps timeStamps) =>
    if timeStamps.len = 0 then r
    else
      let st := (List.range timeStamps.len).foldl (compactStep window timeStamps.off)
        (r.Arrays.array timeStamps.arr, 0)
      { r with
        Arrays := r.Arrays.set timeStamps.arr st.1
        RequestMap := r.RequestMap.Store key (Value.stamps { timeStamps with len := st.2 }) }

/-- The built-in `append(s, v)`: with spare capacity it writes `v` behind the last
element of `s` in the backing array; otherwise it allocates an array that holds the
elements of `s` and `v`. The capacity of a new array is the choice `grow` of the
runtime, at least `len(s) + 1`; its spare slots hold zero values. -/
def append (grow : Nat → Nat) (h : Heap) (s : Slice) (v : Time) : Heap × Slice :=
  if s.len < s.cap then
    (h.set s.arr ((h.array s.arr).set (s.off + s.len) v), { s with len := s.len + 1 })
  else
    (h ++ [h.view s ++ [v] ++ List.replicate (max (grow s.cap) (s.len + 1) - (s.len + 1)) 0],
      { arr := h.length, off := 0, len := s.len + 1, cap := max (grow s.cap) (s.len + 1) })

/-- The method `AllowRequest` when both clock readings are the instant `now`. -/
def AllowRequest (grow : Nat → Nat) (r : RateLimiter) (key : String) (now : Time) :
    Bool × RateLimiter :=
  let r1 := removeExpiredRequests r key now
  match r1.RequestMap.Load key with
  | none =>
    (true, { r1 with
      Arrays := r1.Arrays ++ [[now]]
      RequestMap := r1.RequestMap.Store key
        (Value.stamps { arr := r1.Arrays.length, off := 0, len := 1, cap := 1 }) })
  | some (Value.other _) => (false, r1)
  | some (Value.stamps timeStamps) =>
    if (timeStamps.len : Int) < r1.Limit then
      let next := append grow r1.Arrays timeStamps now
      (true, { r1 with
        Arrays := next.1
        RequestMap := r1.RequestMap.Store key (Value.stamps next.2) })
    else (false, r1)

/-- Consecutive `AllowRequest` calls, one after another: the results in call order
and the final limiter. -/
def runAllow (grow : Nat → Nat) (r : RateLimiter) :
    List (String × Time) → List Bool × RateLimiter
  | [] => ([], r)
  | (key, now) :: rest =>
    let step := AllowRequest grow r key now
    let tail := runAllow grow step.2 rest
    (step.1 :: tail.1, tail.2)

/-- The results of a run that were returned for the calls on `key`, in call order. -/
def resultsOn (grow : Nat → Nat) (key : String) (r : RateLimiter)
    (calls : List (String × Time)) : List Bool :=
  ((calls.zip (runAllow grow r calls).1).filter (fun c => decide (c.1.1 = key))).map
    (fun c => c.2)

/-- What a `Load` of `key` followed by a read of the slice yields: the timestamp
sequence, or the value of another type. -/
def contents (r : RateLimiter) (key : String) : Option rate_limiter.Value :=
  match r.RequestMap.Load key with
  | none => none
  | some (Value.other tag) => some (rate_limiter.Value.other tag)
  | some (Value.stamps timeStamps) => some (rate_limiter.Value.stamps (r.Arrays.view timeStamps))

/-- The limiter as the sequences it holds, without the arrays. -/
def abs (r : RateLimiter) : rate_limiter.RateLimiter :=
  { RequestMap := fun key => contents r key, Limit := r.Limit, Duration := r.Duration }

/-- Every stored slice lies inside an array in memory: its array exists, its length
is at most its capacity, and its capacity ends inside the array. -/
def WellFormed (r : RateLimiter) : Prop :=
  ∀ key s, r.RequestMap.Load key = some (Value.stamps s) →
    s.arr < r.Arrays.length ∧ s.len ≤ s.cap ∧ s.off + s.cap ≤ (r.Arrays.array s.arr).length

/-- The slice stored under `key` shares its backing array with no slice stored under
another key. -/
def OwnArray (r : RateLimiter) (key : String) : Prop :=
  ∀ k s s', k ≠ key → r.RequestMap.Load key = some (Value.stamps s) →
    r.RequestMap.Load k = some (Value.stamps s') → s'.arr ≠ s.arr

/-- No two keys hold slices over one backing array. -/
def Separate (r : RateLimiter) : Prop := ∀ key, OwnArray r key

/-- A limiter with one array, and slices over it stored directly under `user1` and
`user2`, the way the tests seed a key through `RequestMap.Store`. -/
def shared (limit : Int) (duration : rate_limiter.Duration) (array : List Time)
    (s1 s2 : Slice) : RateLimiter :=
  { Arrays := [array]
    RequestMap := SyncMap.Store (SyncMap.Store (fun _ => none) "user1" (Value.stamps s1)) "user2"
      (Value.stamps s2)
    Limit := limit
    Duration := duration }

end mem

/-! ## The compaction loop is the list filter -/

/-- The state of the compaction loop after `i` iterations. -/
def compactUpTo (window : Time) (timeStamps : RequestTimeStamps) (i : Nat) : List Time × Nat :=
  (List.range i).foldl (compactStep window) (timeStamps, 0)

theorem compactUpTo_succ (w : Time) (xs : RequestTimeStamps) (i : Nat) :
    compactUpTo w xs (i + 1) = compactStep w (compactUpTo w xs i) i := by
  simp [compactUpTo, List.range_succ, List.foldl_append]

theorem take_succ_set (a : List Time) (v : Nat) (x : Time) (h : v < a.length) :
    (a.set v x).take (v + 1) = a.take v ++ [x] := by
  induction a generalizing v with
  | nil => simp at h
  | cons y ys ih =>
    cases v with
    | zero => simp
    | succ v => simpa using ih v (by simpa using h)

theorem compactUpTo_inv (w : Time) (xs : RequestTimeStamps) (i : Nat) (hi : i ≤ xs.length) :
    (compactUpTo w xs i).1.length = xs.length ∧
    (compactUpTo w xs i).2 ≤ i ∧
    (compactUpTo w xs i).1.take (compactUpTo w xs i).2
      = (xs.take i).filter (fun ts => Time.After ts w) ∧
    (compactUpTo w xs i).1.drop i = xs.drop i := by
  induction i with
  | zero => simp [compactUpTo]
  | succ i ih =>
    obtain ⟨hlen, hv, htake, hdrop⟩ := ih (by omega)
    rw [compactUpTo_succ]
    generalize compactUpTo w xs i = st at hlen hv htake hdrop
    obtain ⟨a, v⟩ := st
    simp only at hlen hv htake hdrop
    have hi' : i < xs.length := by omega
    have hia : i < a.length := by omega
    have hget : a.get? i = some xs[i] := by
      have h1 : (a.drop i)[0]? = (xs.drop i)[0]? := by rw [hdrop]
      rw [List.getElem?_drop, List.getElem?_drop] at h1
      simpa [List.getElem?_eq_getElem hi'] using h1
    have hxt : xs.take (i + 1) = xs.take i ++ [xs[i]] := by
      rw [List.take_succ, List.getElem?_eq_getElem hi']; rfl
    have hdrop' : a.drop (i + 1) = xs.drop (i + 1) := by
      rw [← List.drop_drop 1 i, ← List.drop_drop 1 i, hdrop]
    unfold compactStep
    simp only [hget]
    by_cases hp : Time.After xs[i] w = true
    · simp only [hp, if_true]
      refine ⟨by simpa using hlen, by omega, ?_, ?_⟩
      · rw [hxt, List.filter_append, ← htake]
        rw [take_succ_set a v _ (by omega)]
        simp [hp]
      · rw [List.drop_set_of_lt _ _ (by omega), hdrop']
    · simp only [hp]
      refine ⟨hlen, by simp; omega, ?_, hdrop'⟩
      rw [hxt, List.filter_append, ← htake]
      simp [hp]

theorem compact_eq_compactUpTo (w : Time) (xs : RequestTimeStamps) :
    compact w xs = compactUpTo w xs xs.length := rfl

theorem compact_take (w : Time) (xs : RequestTimeStamps) :
    (compact w xs).1.take (compact w xs).2 = xs.filter (fun ts => decide (w < ts)) := by
  have h := (compactUpTo_inv w xs xs.length (Nat.le_refl _)).2.2.1
  rw [compact_eq_compactUpTo, h, List.take_length]
  rfl

/-! ## Effect of `removeExpiredRequests` on the fields -/

theorem Store_same (m : SyncMap) (key : String) (v : Value) : (m.Store key v).Load key = some v := by
  simp [SyncMap.Store, SyncMap.Load]

theorem Store_other (m : SyncMap) (key k : String) (v : Value) (h : k ≠ key) :
    (m.Store key v).Load k = m.Load k := by
  simp [SyncMap.Store, SyncMap.Load, h]

theorem Store_Store (m : SyncMap) (key : String) (v v' : Value) :
    (m.Store key v).Store key v' = m.Store key v' := by
  funext k; simp only [SyncMap.Store]; split <;> rfl

theorem Store_Load (m : SyncMap) (key : String) (v : Value) (h : m.Load key = some v) :
    m.Store key v = m := by
  funext k; simp only [SyncMap.Store]; split
  · next hk => rw [hk]; exact h.symm
  · rfl

theorem removeExpiredRequests_none (r : RateLimiter) (key : String) (now : Time)
    (h : r.RequestMap.Load key = none) : removeExpiredRequests r key now = r := by
  simp [removeExpiredRequests, h]

theorem removeExpiredRequests_other (r : RateLimiter) (key : String) (now : Time) (tag : Nat)
    (h : r.RequestMap.Load key = some (Value.other tag)) : removeExpiredRequests r key now = r := by
  simp [removeExpiredRequests, h]

theorem removeExpiredRequests_stamps (r : RateLimiter) (key : String) (now : Time)
    (xs : RequestTimeStamps) (h : r.RequestMap.Load key = some (Value.stamps xs)) :
    removeExpiredRequests r key now =
      { r with RequestMap := (r.RequestMap.Store key
          (Value.stamps (xs.filter (fun ts => decide (window now r.Duration < ts))))) } := by
  simp only [removeExpiredRequests, h]
  split
  · next h0 =>
    have hx : xs = [] := List.eq_nil_of_length_eq_zero h0
    subst hx
    simp only [List.filter_nil]
    rw [Store_Load _ _ _ h]
  · rw [compact_take]

/-! ## Effect of `AllowRequest`, by the shape of the stored value -/

theorem AllowRequest_absent (r : RateLimiter) (key : String) (now : Time)
    (h : r.RequestMap.Load key = none) :
    AllowRequest r key now =
      (true, { r with RequestMap := (r.RequestMap.Store key (Value.stamps [now])) }) := by
  simp [AllowRequest, AllowRequestAt, removeExpiredRequests_none r key now h, h]

theorem AllowRequest_other (r : RateLimiter) (key : String) (now : Time) (tag : Nat)
    (h : r.RequestMap.Load key = some (Value.other tag)) :
    AllowRequest r key now = (false, r) := by
  simp [AllowRequest, AllowRequestAt, removeExpiredRequests_other r key now tag h, h]

theorem AllowRequest_stamps (r : RateLimiter) (key : String) (now : Time)
    (xs : RequestTimeStamps) (h : r.RequestMap.Load key = some (Value.stamps xs)) :
    AllowRequest r key now =
      if ((xs.filter (fun ts => decide (window now r.Duration < ts))).length : Int) < r.Limit then
        (true, { r with RequestMap := (r.RequestMap.Store key
          (Value.stamps (xs.filter (fun ts => decide (window now r.Duration < ts)) ++ [now]))) })
      else (false, removeExpiredRequests r key now) := by
  simp only [AllowRequest, AllowRequestAt, removeExpiredRequests_stamps r key now xs h, Store_same,
    Store_Store]

/-! ## Frame of `AllowRequest` and its action on one key -/

theorem AllowRequest_keyStep (r : RateLimiter) (key : String) (now : Time) :
    (AllowRequest r key now).1 = (keyStep r.Limit r.Duration now (r.RequestMap.Load key)).1 ∧
    (AllowRequest r key now).2.RequestMap.Load key
      = (keyStep r.Limit r.Duration now (r.RequestMap.Load key)).2 := by
  cases h : r.RequestMap.Load key with
  | none =>
    rw [AllowRequest_absent r key now h]
    exact ⟨rfl, Store_same _ _ _⟩
  | some v =>
    cases v with
    | other tag =>
      rw [AllowRequest_other r key now tag h]
      exact ⟨rfl, h⟩
    | stamps xs =>
      rw [AllowRequest_stamps r key now xs h]
      simp only [keyStep]
      split
      · exact ⟨rfl, Store_same _ _ _⟩
      · refine ⟨rfl, ?_⟩
        rw [removeExpiredRequests_stamps r key now xs h]
        exact Store_same _ _ _

theorem removeExpiredRequests_frame (r : RateLimiter) (key : String) (now : Time) :
    (removeExpiredRequests r key now).Limit = r.Limit ∧
    (removeExpiredRequests r key now).Duration = r.Duration ∧
    ∀ k, k ≠ key →
      (removeExpiredRequests r key now).RequestMap.Load k = r.RequestMap.Load k := by
  cases h : r.RequestMap.Load key with
  | none => rw [removeExpiredRequests_none r key now h]; simp
  | some v =>
    cases v with
    | other tag => rw [removeExpiredRequests_other r key now tag h]; simp
    | stamps xs =>
      rw [removeExpiredRequests_stamps r key now xs h]
      exact ⟨rfl, rfl, fun k hk => Store_other _ _ _ _ hk⟩

theorem AllowRequest_frame (r : RateLimiter) (key : String) (now : Time) :
    (AllowRequest r key now).2.Limit = r.Limit ∧
    (AllowRequest r key now).2.Duration = r.Duration ∧
    ∀ k, k ≠ key → (AllowRequest r key now).2.RequestMap.Load k = r.RequestMap.Load k := by
  cases h : r.RequestMap.Load key with
  | none =>
    rw [AllowRequest_absent r key now h]
    exact ⟨rfl, rfl, fun k hk => Store_other _ _ _ _ hk⟩
  | some v =>
    cases v with
    | other tag => rw [AllowRequest_other r key now tag h]; simp
    | stamps xs =>
      rw [AllowRequest_stamps r key now xs h]
      split
      · exact ⟨rfl, rfl, fun k hk => Store_other _ _ _ _ hk⟩
      · exact removeExpiredRequests_frame r key now

theorem resultsOn_cons (key : String) (r : RateLimiter) (k : String) (t : Time)
    (rest : List (String × Time)) :
    resultsOn key r ((k, t) :: rest) =
      if k = key then (AllowRequest r k t).1 :: resultsOn key (AllowRequest r k t).2 rest
      else resultsOn key (AllowRequest r k t).2 rest := by
  simp only [resultsOn, runAllow, List.zip_cons_cons, List.filter_cons]
  split <;> simp_all

/-- Two limiters with the same settings and the same value under `key` return the same
results for the calls on `key`, whatever the calls on other keys do. -/
theorem resultsOn_eq_of_agree (key : String) (calls : List (String × Time)) :
    ∀ r r' : RateLimiter, r.Limit = r'.Limit → r.Duration = r'.Duration →
      r.RequestMap.Load key = r'.RequestMap.Load key →
      resultsOn key r calls = (runAllow r' (calls.filter (fun c => decide (c.1 = key)))).1 := by
  induction calls with
  | nil => intro r r' _ _ _; rfl
  | cons c rest ih =>
    intro r r' hL hD hK
    obtain ⟨k, t⟩ := c
    rw [resultsOn_cons, List.filter_cons]
    by_cases hk : k = key
    · subst hk
      simp only [if_true, decide_True, runAllow]
      have h1 := AllowRequest_keyStep r k t
      have h2 := AllowRequest_keyStep r' k t
      have f1 := AllowRequest_frame r k t
      have f2 := AllowRequest_frame r' k t
      rw [hL, hD, hK] at h1
      congr 1
      · rw [h1.1, h2.1]
      · apply ih
        · rw [f1.1, f2.1, hL]
        · rw [f1.2.1, f2.2.1, hD]
        · rw [h1.2, h2.2]
    · simp only [hk, if_false, decide_False]
      have f1 := AllowRequest_frame r k t
      apply ih
      · rw [f1.1, hL]
      · rw [f1.2.1, hD]
      · rw [f1.2.2 key (Ne.symm hk), hK]

/-! ## The cutoff -/

theorem neg_ns (d : Duration) (h : minInt64 < d.ns) : (Duration.neg d).ns = -d.ns := by
  have h1 := d.hi
  simp only [Duration.neg, Duration.ofInt, wrapInt64]
  simp only [minInt64] at h
  simp only [maxInt64] at h1
  omega

/-- The cutoff is `now - Duration` for every duration but the smallest `int64`,
whose negation wraps around. -/
theorem window_eq_sub (now : Time) (d : Duration) (h : minInt64 < d.ns) :
    window now d = now - d.ns := by
  simp only [window, Time.Add, neg_ns d h]
  unfold Time at *
  omega

theorem window_eq_sub_of_pos (now : Time) (d : Duration) (h : 0 < d.ns) :
    window now d = now - d.ns :=
  window_eq_sub now d (by simp only [minInt64]; omega)

theorem window_mono (d : Duration) (t1 t2 : Time) (h : t1 ≤ t2) : window t1 d ≤ window t2 d := by
  simp only [window, Time.Add]
  unfold Time at *
  omega

/-! ## Runs of `AllowRequest` on one key while nothing expires -/

theorem le_getLast_of_pairwise (l : List Time) (hl : l ≠ []) (hs : l.Pairwise (fun a b => a ≤ b))
    (x : Time) (hx : x ∈ l) : x ≤ l.getLast hl := by
  induction l generalizing x with
  | nil => exact absurd rfl hl
  | cons a t ih =>
    cases t with
    | nil =>
      simp only [List.mem_singleton] at hx
      simp [hx]
    | cons b t =>
      rw [List.getLast_cons_cons]
      rw [List.pairwise_cons] at hs
      rcases List.mem_cons.1 hx with rfl | hx
      · exact le_trans (hs.1 b (List.mem_cons_self _ _))
          (ih (List.cons_ne_nil _ _) hs.2 b (List.mem_cons_self _ _))
      · exact ih (List.cons_ne_nil _ _) hs.2 x hx

theorem filter_live_eq_self (c : Time) (xs : RequestTimeStamps) (h : ∀ s ∈ xs, c < s) :
    xs.filter (fun ts => decide (c < ts)) = xs := by
  rw [List.filter_eq_self]
  intro a ha
  simpa using h a ha

/-- While every stored and every new timestamp stays inside the window of every later
call, a run on one key admits until the sequence has `Limit` entries and rejects after. -/
theorem runAllow_live (N : Nat) (key : String) (times : List Time) :
    ∀ (r : RateLimiter) (S : RequestTimeStamps),
      r.Limit = N → r.RequestMap.Load key = some (Value.stamps S) →
      (∀ t ∈ times, ∀ s ∈ S, window t r.Duration < s) →
      (∀ t ∈ times, window t r.Duration < t) →
      times.Pairwise (fun t t' => window t' r.Duration < t) →
      (runAllow r (times.map (fun t => (key, t)))).1 =
        List.replicate (min times.length (N - S.length)) true ++
          List.replicate (times.length - (N - S.length)) false := by
  induction times with
  | nil => intro r S _ _ _ _ _; simp [runAllow]
  | cons t ts ih =>
    intro r S hL h hS hself hpw
    rw [List.pairwise_cons] at hpw
    have hfil : S.filter (fun ts => decide (window t r.Duration < ts)) = S :=
      filter_live_eq_self _ S (hS t (List.mem_cons_self _ _))
    simp only [List.map_cons, runAllow]
    rw [AllowRequest_stamps r key t S h, hfil]
    by_cases hlt : ((S.length : Nat) : Int) < r.Limit
    · rw [if_pos hlt]
      simp only
      have hS' : ∀ t' ∈ ts, ∀ s ∈ S ++ [t], window t' r.Duration < s := by
        intro t' ht' s hs
        rcases List.mem_append.1 hs with hs | hs
        · exact hS t' (List.mem_cons_of_mem _ ht') s hs
        · rw [List.mem_singleton.1 hs]; exact hpw.1 t' ht'
      rw [ih ⟨r.RequestMap.Store key (Value.stamps (S ++ [t])), r.Limit, r.Duration⟩ (S ++ [t]) hL
        (Store_same _ _ _) hS' (fun t' ht' => hself t' (List.mem_cons_of_mem _ ht')) hpw.2]
      rw [hL] at hlt
      have hlt' : S.length < N := by exact_mod_cast hlt
      simp only [List.length_append, List.length_singleton, List.length_cons]
      have e1 : min (ts.length + 1) (N - S.length) = min ts.length (N - (S.length + 1)) + 1 := by
        omega
      have e2 : ts.length + 1 - (N - S.length) = ts.length - (N - (S.length + 1)) := by omega
      rw [e1, e2, List.replicate_succ, List.cons_append]
      simp only [List.length_nil, Nat.zero_add]
    · rw [if_neg hlt]
      simp only
      rw [removeExpiredRequests_stamps r key t S h, hfil]
      rw [ih ⟨r.RequestMap.Store key (Value.stamps S), r.Limit, r.Duration⟩ S hL
        (Store_same _ _ _) (fun t' ht' => hS t' (List.mem_cons_of_mem _ ht'))
        (fun t' ht' => hself t' (List.mem_cons_of_mem _ ht')) hpw.2]
      rw [hL] at hlt
      have hge : N ≤ S.length := by
        have : ¬ S.length < N := fun h' => hlt (by exact_mod_cast h')
        omega
      simp only [List.length_cons]
      have e1 : N - S.length = 0 := by omega
      rw [e1]
      simp [List.replicate_succ]

/-! ## Pruning earlier does not change later calls -/

theorem filter_filter_of_le (c c' : Time) (h : c ≤ c') (xs : RequestTimeStamps) :
    (xs.filter (fun ts => decide (c < ts))).filter (fun ts => decide (c' < ts))
      = xs.filter (fun ts => decide (c' < ts)) := by
  rw [List.filter_filter]
  apply List.filter_congr
  intro x _
  by_cases hx : c' < x
  · have : c < x := lt_of_le_of_lt h hx
    simp [hx, this]
  · simp [hx]

theorem keyStep_prunedOf (limit : Int) (d : Duration) (now c : Time) (hc : c ≤ window now d)
    (v1 v2 : Option Value) (h : prunedOf c v1 v2) :
    keyStep limit d now v1 = keyStep limit d now v2 := by
  rcases h with h | ⟨xs, h2, h1⟩
  · rw [h]
  · rw [h1, h2]
    simp only [keyStep, filter_filter_of_le c (window now d) hc xs]

theorem runAllow_prunedOf (c : Time) (calls : List (String × Time)) :
    ∀ r1 r2 : RateLimiter, r1.Limit = r2.Limit → r1.Duration = r2.Duration →
      (∀ key, prunedOf c (r1.RequestMap.Load key) (r2.RequestMap.Load key)) →
      (∀ call ∈ calls, c ≤ window call.2 r2.Duration) →
      (runAllow r1 calls).1 = (runAllow r2 calls).1 := by
  induction calls with
  | nil => intro r1 r2 _ _ _ _; rfl
  | cons call rest ih =>
    intro r1 r2 hL hD hK hc
    obtain ⟨k, t⟩ := call
    have hct : c ≤ window t r2.Duration := hc (k, t) (List.mem_cons_self _ _)
    have h1 := AllowRequest_keyStep r1 k t
    have h2 := AllowRequest_keyStep r2 k t
    have f1 := AllowRequest_frame r1 k t
    have f2 := AllowRequest_frame r2 k t
    rw [hL, hD, keyStep_prunedOf r2.Limit r2.Duration t c hct _ _ (hK k)] at h1
    simp only [runAllow]
    congr 1
    · rw [h1.1, h2.1]
    · apply ih
      · rw [f1.1, f2.1, hL]
      · rw [f1.2.1, f2.2.1, hD]
      · intro key
        by_cases hk : key = k
        · subst hk
          rw [h1.2, h2.2]
          exact Or.inl rfl
        · rw [f1.2.2 key hk, f2.2.2 key hk]
          exact hK key
      · intro call hcall
        rw [f2.2.1]
        exact hc call (List.mem_cons_of_mem _ hcall)

theorem removeExpiredRequests_prunedOf (r : RateLimiter) (k : String) (t : Time) (key : String) :
    prunedOf (window t r.Duration) ((removeExpiredRequests r k t).RequestMap.Load key)
      (r.RequestMap.Load key) := by
  by_cases hk : key = k
  · subst hk
    cases h : r.RequestMap.Load key with
    | none => rw [removeExpiredRequests_none r key t h, h]; exact Or.inl rfl
    | some v =>
      cases v with
      | other tag => rw [removeExpiredRequests_other r key t tag h, h]; exact Or.inl rfl
      | stamps xs =>
        rw [removeExpiredRequests_stamps r key t xs h]
        exact Or.inr ⟨xs, rfl, Store_same _ _ _⟩
  · exact Or.inl ((removeExpiredRequests_frame r k t).2.2 key hk)

/-- After a call that returned `false`, a later run of calls at non-decreasing times
returns on the sequences what it returns without that call. -/
theorem runAllow_after_rejection (s : RateLimiter) (k : String) (t : Time)
    (hrej : (AllowRequest s k t).1 = false) (calls : List (String × Time))
    (hmono : (t :: calls.map (fun c => c.2)).Pairwise (fun a b => a ≤ b)) :
    (runAllow (AllowRequest s k t).2 calls).1 = (runAllow s calls).1 := by
  have hst : (AllowRequest s k t).2 = removeExpiredRequests s k t := by
    cases h : s.RequestMap.Load k with
    | none => rw [AllowRequest_absent s k t h] at hrej; simp at hrej
    | some v =>
      cases v with
      | other tag => rw [AllowRequest_other s k t tag h, removeExpiredRequests_other s k t tag h]
      | stamps xs =>
        rw [AllowRequest_stamps s k t xs h] at hrej ⊢
        split
        · next hlt => rw [if_pos hlt] at hrej; simp at hrej
        · rfl
  rw [hst]
  have f := removeExpiredRequests_frame s k t
  apply runAllow_prunedOf (window t s.Duration) calls _ s f.1 f.2.1
    (removeExpiredRequests_prunedOf s k t)
  intro call hcall
  apply window_mono
  exact (List.pairwise_cons.1 hmono).1 call.2 (List.mem_map_of_mem _ hcall)

/-! ## The trailing-window invariant -/

theorem runCalls_times (calls : List Call) :
    ∀ (r : RateLimiter) (a : String × Time), a ∈ (runCalls r calls).1 →
      a.2 ∈ calls.map Call.time := by
  induction calls with
  | nil => intro r a ha; simp [runCalls] at ha
  | cons c rest ih =>
    intro r a ha
    cases c with
    | prune k T =>
      simp only [runCalls] at ha
      exact List.mem_cons_of_mem _ (ih _ a ha)
    | allow k T =>
      simp only [runCalls] at ha
      split at ha
      · rcases List.mem_cons.1 ha with h | h
        · rw [h]; exact List.mem_cons_self _ _
        · exact List.mem_cons_of_mem _ (ih _ a h)
      · exact List.mem_cons_of_mem _ (ih _ a ha)

theorem runCalls_count_zero (key : String) (lo t : Time) (calls : List Call) (r : RateLimiter)
    (h : ∀ c ∈ calls, t < c.time) :
    (runCalls r calls).1.countP (fun a => decide (a.1 = key ∧ lo < a.2 ∧ a.2 ≤ t)) = 0 := by
  rw [List.countP_eq_zero]
  intro a ha
  have hm := runCalls_times calls r a ha
  obtain ⟨c, hc, hct⟩ := List.mem_map.1 hm
  have := h c hc
  rw [hct] at this
  simp only [decide_eq_true_eq, not_and, not_le]
  intro _ _
  exact this

theorem countP_filter_of_le (c c' : Time) (h : c ≤ c') (xs : RequestTimeStamps) :
    (xs.filter (fun ts => decide (c < ts))).countP (fun ts => decide (c' < ts))
      = xs.countP (fun ts => decide (c' < ts)) := by
  rw [List.countP_eq_length_filter, List.countP_eq_length_filter, filter_filter_of_le c c' h]

theorem prune_step (N : Nat) (key k : String) (T t : Time) (r : RateLimiter)
    (hw : 0 < r.Duration.ns) (hT : T ≤ t)
    (hS : (stampsOf (r.RequestMap.Load key)).length ≤ N) :
    (stampsOf ((removeExpiredRequests r k T).RequestMap.Load key)).length ≤ N ∧
    (stampsOf (r.RequestMap.Load key)).countP (fun s => decide (t - r.Duration.ns < s))
      = (stampsOf ((removeExpiredRequests r k T).RequestMap.Load key)).countP
          (fun s => decide (t - r.Duration.ns < s)) := by
  have hc : window T r.Duration ≤ t - r.Duration.ns := by
    rw [window_eq_sub_of_pos T _ hw]; unfold Time at *; omega
  rcases removeExpiredRequests_prunedOf r k T key with h | ⟨xs, h2, h1⟩
  · rw [h]; exact ⟨hS, rfl⟩
  · rw [h1]
    rw [h2] at hS ⊢
    simp only [stampsOf] at hS ⊢
    exact ⟨le_trans (List.length_filter_le _ _) hS, (countP_filter_of_le _ _ hc xs).symm⟩

theorem allow_step (N : Nat) (hN : 1 ≤ N) (key k : String) (T t : Time) (r : RateLimiter)
    (hL : r.Limit = N) (hw : 0 < r.Duration.ns) (hT : T ≤ t)
    (hS : (stampsOf (r.RequestMap.Load key)).length ≤ N) :
    (stampsOf ((AllowRequest r k T).2.RequestMap.Load key)).length ≤ N ∧
    (stampsOf (r.RequestMap.Load key)).countP (fun s => decide (t - r.Duration.ns < s))
        + (if (AllowRequest r k T).1 = true ∧ k = key ∧ t - r.Duration.ns < T then 1 else 0)
      ≤ (stampsOf ((AllowRequest r k T).2.RequestMap.Load key)).countP
          (fun s => decide (t - r.Duration.ns < s)) := by
  have hc : window T r.Duration ≤ t - r.Duration.ns := by
    rw [window_eq_sub_of_pos T _ hw]; unfold Time at *; omega
  by_cases hk : k = key
  · subst hk
    obtain ⟨h1, h2⟩ := AllowRequest_keyStep r k T
    rw [h1, h2]
    cases h : r.RequestMap.Load k with
    | none =>
      simp only [keyStep, stampsOf, List.length_singleton, List.countP_nil, true_and]
      refine ⟨hN, ?_⟩
      by_cases hin : t - r.Duration.ns < T
      · simp [hin, List.countP_cons]
      · simp [hin]
    | some v =>
      cases v with
      | other tag => simp [keyStep, stampsOf]
      | stamps xs =>
        rw [h] at hS
        simp only [stampsOf] at hS
        simp only [keyStep]
        split
        · next hlt =>
          rw [hL] at hlt
          have hlt' : (xs.filter (fun ts => decide (window T r.Duration < ts))).length < N := by
            exact_mod_cast hlt
          simp only [stampsOf, List.length_append, List.length_singleton, List.countP_append,
            countP_filter_of_le _ _ hc xs, true_and]
          refine ⟨by omega, ?_⟩
          by_cases hin : t - r.Duration.ns < T
          · simp [hin, List.countP_cons]
          · simp [hin]
        · simp only [stampsOf, countP_filter_of_le _ _ hc xs]
          exact ⟨le_trans (List.length_filter_le _ _) hS, by simp⟩
  · rw [(AllowRequest_frame r k T).2.2 key (Ne.symm hk)]
    exact ⟨hS, by simp [hk]⟩

/-- From a limiter whose sequence for `key` has at most `Limit` entries, the stored
entries after `t - w` plus the later admissions of `key` in `(t - w, t]` are at most
`Limit`. -/
theorem runCalls_window_bound (N : Nat) (hN : 1 ≤ N) (key : String) (t : Time)
    (calls : List Call) :
    ∀ r : RateLimiter, r.Limit = N → 0 < r.Duration.ns →
      (stampsOf (r.RequestMap.Load key)).length ≤ N →
      (calls.map Call.time).Pairwise (fun a b => a ≤ b) →
      (stampsOf (r.RequestMap.Load key)).countP (fun s => decide (t - r.Duration.ns < s))
        + (runCalls r calls).1.countP
            (fun a => decide (a.1 = key ∧ t - r.Duration.ns < a.2 ∧ a.2 ≤ t)) ≤ N := by
  induction calls with
  | nil =>
    intro r _ _ hS _
    simp only [runCalls, List.countP_nil, Nat.add_zero]
    exact le_trans (List.countP_le_length _) hS
  | cons c rest ih =>
    intro r hL hw hS hmono
    rw [List.map_cons, List.pairwise_cons] at hmono
    by_cases hT : c.time ≤ t
    · cases c with
      | prune k T =>
        simp only [Call.time] at hT
        obtain ⟨hS', hcnt⟩ := prune_step N key k T t r hw hT hS
        have f := removeExpiredRequests_frame r k T
        have := ih (removeExpiredRequests r k T) (by rw [f.1, hL]) (by rw [f.2.1]; exact hw)
          hS' hmono.2
        rw [f.2.1] at this
        simp only [runCalls]
        omega
      | allow k T =>
        simp only [Call.time] at hT
        obtain ⟨hS', hcnt⟩ := allow_step N hN key k T t r hL hw hT hS
        have f := AllowRequest_frame r k T
        have := ih (AllowRequest r k T).2 (by rw [f.1, hL]) (by rw [f.2.1]; exact hw)
          hS' hmono.2
        rw [f.2.1] at this
        simp only [runCalls]
        by_cases hb : (AllowRequest r k T).1 = true
        · simp only [hb, if_true, List.countP_cons, decide_eq_true_eq, true_and] at hcnt ⊢
          have e : (k = key ∧ t - r.Duration.ns < T ∧ T ≤ t) ↔ (k = key ∧ t - r.Duration.ns < T) :=
            ⟨fun h => ⟨h.1, h.2.1⟩, fun h => ⟨h.1, h.2, hT⟩⟩
          simp only [e]
          omega
        · have hb' : (AllowRequest r k T).1 = false := by simpa using hb
          simp only [hb', Bool.false_eq_true, false_and, if_false] at hcnt ⊢
          omega
    · have hlt : ∀ c' ∈ c :: rest, t < c'.time := by
        intro c' hc'
        have ht : t < c.time := lt_of_not_le hT
        rcases List.mem_cons.1 hc' with h | h
        · rw [h]; exact ht
        · exact lt_of_lt_of_le ht (hmono.1 c'.time (List.mem_map_of_mem _ h))
      rw [runCalls_count_zero key _ t (c :: rest) r hlt, Nat.add_zero]
      exact le_trans (List.countP_le_length _) hS

/-! ## Lengths of the stored sequences -/

theorem prune_length_le (r : RateLimiter) (k key : String) (now : Time) :
    (stampsOf ((removeExpiredRequests r k now).RequestMap.Load key)).length
      ≤ (stampsOf (r.RequestMap.Load key)).length := by
  rcases removeExpiredRequests_prunedOf r k now key with h | ⟨xs, h2, h1⟩
  · rw [h]
  · rw [h1, h2]
    exact List.length_filter_le _ _

theorem allow_length_le_succ (r : RateLimiter) (k key : String) (now : Time) :
    (stampsOf ((AllowRequest r k now).2.RequestMap.Load key)).length
      ≤ (stampsOf (r.RequestMap.Load key)).length + 1 := by
  by_cases hk : key = k
  · subst hk
    rw [(AllowRequest_keyStep r key now).2]
    cases h : r.RequestMap.Load key with
    | none => simp [keyStep, stampsOf]
    | some v =>
      cases v with
      | other tag => simp [keyStep, stampsOf]
      | stamps xs =>
        have hf := List.length_filter_le (fun ts => decide (window now r.Duration < ts)) xs
        simp only [keyStep]
        split
        · simp only [stampsOf, List.length_append, List.length_singleton]; omega
        · simp only [stampsOf]; omega
  · rw [(AllowRequest_frame r k now).2.2 key hk]
    omega

theorem allow_length_le_limit (N : Nat) (hN : 1 ≤ N) (r : RateLimiter) (hL : r.Limit = N)
    (k key : String) (now : Time) (hS : (stampsOf (r.RequestMap.Load key)).length ≤ N) :
    (stampsOf ((AllowRequest r k now).2.RequestMap.Load key)).length ≤ N := by
  by_cases hk : key = k
  · subst hk
    rw [(AllowRequest_keyStep r key now).2]
    cases h : r.RequestMap.Load key with
    | none => simpa [keyStep, stampsOf] using hN
    | some v =>
      cases v with
      | other tag => simp [keyStep, stampsOf]
      | stamps xs =>
        rw [h] at hS
        simp only [stampsOf] at hS
        have hf := List.length_filter_le (fun ts => decide (window now r.Duration < ts)) xs
        simp only [keyStep]
        split
        · next hlt =>
          rw [hL] at hlt
          have hlt' : (xs.filter (fun ts => decide (window now r.Duration < ts))).length < N := by
            exact_mod_cast hlt
          simp only [stampsOf, List.length_append, List.length_singleton]; omega
        · simp only [stampsOf]; omega
  · rw [(AllowRequest_frame r k now).2.2 key hk]
    exact hS

theorem runCalls_length_bound (N : Nat) (hN : 1 ≤ N) (calls : List Call) :
    ∀ r : RateLimiter, r.Limit = N →
      (∀ key, (stampsOf (r.RequestMap.Load key)).length ≤ N) →
      ∀ key, (stampsOf ((runCalls r calls).2.RequestMap.Load key)).length ≤ N := by
  induction calls with
  | nil => intro r _ hS key; exact hS key
  | cons c rest ih =>
    intro r hL hS key
    cases c with
    | prune k now =>
      simp only [runCalls]
      exact ih _ (by rw [(removeExpiredRequests_frame r k now).1, hL])
        (fun key' => le_trans (prune_length_le r k key' now) (hS key')) key
    | allow k now =>
      simp only [runCalls]
      exact ih _ (by rw [(AllowRequest_frame r k now).1, hL])
        (fun key' => allow_length_le_limit N hN r hL k key' now (hS key')) key

/-! ## The steps of a call -/

/-- A call that runs its four steps alone does what `AllowRequest` does. -/
theorem callStep_alone (r : RateLimiter) (key : String) (now : Time) :
    runRace r.Limit r.Duration key now now ⟨r.RequestMap, Pc.start, Pc.start⟩
        [Who.first, Who.first, Who.first, Who.first]
      = ⟨(AllowRequest r key now).2.RequestMap, Pc.done (AllowRequest r key now).1, Pc.start⟩ := by
  cases h : r.RequestMap.Load key with
  | none =>
    rw [AllowRequest_absent r key now h]
    simp [runRace, raceStep, callStep, h]
  | some v =>
    cases v with
    | other tag =>
      rw [AllowRequest_other r key now tag h]
      simp [runRace, raceStep, callStep, h]
    | stamps xs =>
      rw [AllowRequest_stamps r key now xs h]
      simp only [runRace, List.foldl_cons, List.foldl_nil, raceStep, callStep, h]
      by_cases h0 : xs.length = 0
      · have hx : xs = [] := List.eq_nil_of_length_eq_zero h0
        subst hx
        simp only [List.length_nil, if_true, callStep, h, List.filter_nil]
        split
        · rfl
        · rw [removeExpiredRequests_stamps r key now [] h, List.filter_nil, Store_Load _ _ _ h]
      · simp only [h0, if_false, compact_take, callStep, Store_same]
        split
        · simp only [Store_Store]
        · rw [removeExpiredRequests_stamps r key now xs h]

theorem callStep_start (limit : Int) (d : Duration) (key : String) (now : Time) (m : SyncMap) :
    callStep limit d key now m Pc.start = (m, Pc.pruneLoaded (m.Load key)) := rfl

theorem callStep_pruned (limit : Int) (d : Duration) (key : String) (now : Time) (m : SyncMap) :
    callStep limit d key now m Pc.pruned = (m, Pc.loaded (m.Load key)) := rfl

theorem callStep_pruneLoaded_live (limit : Int) (d : Duration) (key : String) (now : Time)
    (m : SyncMap) (xs : RequestTimeStamps) (hm : m.Load key = some (Value.stamps xs))
    (hlive : ∀ ts ∈ xs, window now d < ts) :
    callStep limit d key now m (Pc.pruneLoaded (some (Value.stamps xs))) = (m, Pc.pruned) := by
  simp only [callStep]
  split
  · rfl
  · rw [compact_take, filter_live_eq_self _ xs hlive, Store_Load _ _ _ hm]

theorem callStep_loaded_free (limit : Int) (d : Duration) (key : String) (now : Time)
    (m : SyncMap) (xs : RequestTimeStamps) (hlt : (xs.length : Int) < limit) :
    callStep limit d key now m (Pc.loaded (some (Value.stamps xs)))
      = (m.Store key (Value.stamps (xs ++ [now])), Pc.done true) := by
  simp only [callStep, if_pos hlt]

/-! ## Backing arrays: reads and writes -/

theorem array_set_same (h : mem.Heap) (a : Nat) (A : List Time) (ha : a < h.length) :
    mem.Heap.array (h.set a A) a = A := by
  simp [mem.Heap.array, List.getD_eq_getElem?_getD, ha]

theorem array_set_other (h : mem.Heap) (a b : Nat) (A : List Time) (hne : b ≠ a) :
    mem.Heap.array (h.set a A) b = mem.Heap.array h b := by
  simp [mem.Heap.array, List.getD_eq_getElem?_getD, List.getElem?_set_ne (Ne.symm hne)]

theorem array_append_old (h : mem.Heap) (x : List Time) (b : Nat) (hb : b < h.length) :
    mem.Heap.array (h ++ [x]) b = mem.Heap.array h b := by
  simp [mem.Heap.array, List.getD_eq_getElem?_getD, List.getElem?_append_left hb]

theorem array_append_new (h : mem.Heap) (x : List Time) :
    mem.Heap.array (h ++ [x]) h.length = x := by
  simp [mem.Heap.array, List.getD_eq_getElem?_getD]

theorem mem_compactStep_length (w : Time) (off : Nat) (st : List Time × Nat) (i : Nat) :
    (mem.compactStep w off st i).1.length = st.1.length := by
  unfold mem.compactStep
  split
  · rfl
  · split <;> simp

theorem mem_compactStep_drop (w : Time) (off : Nat) (B : List Time) (v i : Nat) :
    (mem.compactStep w off (B, v) i).1.take off = B.take off ∧
    ((mem.compactStep w off (B, v) i).1.drop off, (mem.compactStep w off (B, v) i).2)
      = compactStep w (B.drop off, v) i := by
  have hget : B.get? (off + i) = (B.drop off).get? i := by
    simp [List.getElem?_drop]
  unfold mem.compactStep compactStep
  simp only [hget]
  cases (B.drop off).get? i with
  | none => exact ⟨rfl, rfl⟩
  | some ts =>
    simp only
    split
    · refine ⟨?_, ?_⟩
      · rw [List.set_take, List.set_eq_of_length_le]
        simp only [List.length_take]
        omega
      · rw [List.drop_set]
        simp
    · exact ⟨rfl, rfl⟩

theorem mem_compact_fold (w : Time) (off : Nat) (is : List Nat) :
    ∀ (B : List Time) (v : Nat),
      (is.foldl (mem.compactStep w off) (B, v)).1.length = B.length ∧
      (is.foldl (mem.compactStep w off) (B, v)).1.take off = B.take off ∧
      ((is.foldl (mem.compactStep w off) (B, v)).1.drop off,
        (is.foldl (mem.compactStep w off) (B, v)).2)
        = is.foldl (compactStep w) (B.drop off, v) := by
  induction is with
  | nil => intro B v; exact ⟨rfl, rfl, rfl⟩
  | cons i rest ih =>
    intro B v
    simp only [List.foldl_cons]
    obtain ⟨h1, h2⟩ := mem_compactStep_drop w off B v i
    have hl := mem_compactStep_length w off (B, v) i
    obtain ⟨g0, g1, g2⟩ := ih (mem.compactStep w off (B, v) i).1 (mem.compactStep w off (B, v) i).2
    refine ⟨by rw [g0, hl], by rw [g1, h1], ?_⟩
    rw [g2, h2]

theorem mem_compact_view (w : Time) (A : List Time) (off len : Nat) (hb : off + len ≤ A.length) :
    ((List.range len).foldl (mem.compactStep w off) (A, 0)).1.length = A.length ∧
    ((List.range len).foldl (mem.compactStep w off) (A, 0)).2 ≤ len ∧
    (((List.range len).foldl (mem.compactStep w off) (A, 0)).1.drop off).take
        ((List.range len).foldl (mem.compactStep w off) (A, 0)).2
      = ((A.drop off).take len).filter (fun ts => decide (w < ts)) := by
  obtain ⟨g0, _, g2⟩ := mem_compact_fold w off (List.range len) A 0
  have hlen : len ≤ (A.drop off).length := by simp only [List.length_drop]; omega
  obtain ⟨_, i1, i2, _⟩ := compactUpTo_inv w (A.drop off) len hlen
  have e : List.foldl (compactStep w) (A.drop off, 0) (List.range len)
      = compactUpTo w (A.drop off) len := rfl
  rw [e] at g2
  have g2a := congrArg Prod.fst g2
  have g2b := congrArg Prod.snd g2
  simp only at g2a g2b
  refine ⟨g0, by rw [g2b]; exact i1, ?_⟩
  rw [g2a, g2b, i2]
  rfl

theorem limiter_ext (a b : RateLimiter) (hL : a.Limit = b.Limit) (hD : a.Duration = b.Duration)
    (hM : ∀ k, a.RequestMap.Load k = b.RequestMap.Load k) : a = b := by
  cases a with
  | mk ma la da =>
    cases b with
    | mk mb lb db =>
      simp only at hL hD
      have hm : ma = mb := funext hM
      rw [hL, hD, hm]

theorem mem_Store_same (m : mem.SyncMap) (key : String) (v : mem.Value) :
    (m.Store key v).Load key = some v := by
  simp [mem.SyncMap.Store, mem.SyncMap.Load]

theorem mem_Store_other (m : mem.SyncMap) (key k : String) (v : mem.Value) (h : k ≠ key) :
    (m.Store key v).Load k = m.Load k := by
  simp [mem.SyncMap.Store, mem.SyncMap.Load, h]

theorem view_length (h : mem.Heap) (s : mem.Slice)
    (hb : s.off + s.len ≤ (h.array s.arr).length) : (h.view s).length = s.len := by
  simp only [mem.Heap.view, List.length_take, List.length_drop]
  omega

/-! ## `removeExpiredRequests` on backing arrays -/

/-- The arrays and the map after `removeExpiredRequests` on a non-empty slice. -/
theorem mem_removeExpiredRequests_stamps (r : mem.RateLimiter) (key : String) (now : Time)
    (s : mem.Slice) (h : r.RequestMap.Load key = some (mem.Value.stamps s)) (h0 : s.len ≠ 0) :
    mem.removeExpiredRequests r key now =
      { r with
        Arrays := r.Arrays.set s.arr ((List.range s.len).foldl
          (mem.compactStep (window now r.Duration) s.off) (r.Arrays.array s.arr, 0)).1
        RequestMap := r.RequestMap.Store key (mem.Value.stamps { s with
          len := ((List.range s.len).foldl
            (mem.compactStep (window now r.Duration) s.off) (r.Arrays.array s.arr, 0)).2 }) } := by
  simp only [mem.removeExpiredRequests, h, h0, if_false]

theorem mem_removeExpiredRequests_frame (r : mem.RateLimiter) (key : String) (now : Time) :
    (mem.removeExpiredRequests r key now).Limit = r.Limit ∧
    (mem.removeExpiredRequests r key now).Duration = r.Duration ∧
    (mem.removeExpiredRequests r key now).Arrays.length = r.Arrays.length ∧
    (∀ b, ((mem.removeExpiredRequests r key now).Arrays.array b).length
      = (r.Arrays.array b).length) ∧
    (∀ k, k ≠ key →
      (mem.removeExpiredRequests r key now).RequestMap.Load k = r.RequestMap.Load k) := by
  cases h : r.RequestMap.Load key with
  | none => simp [mem.removeExpiredRequests, h]
  | some v =>
    cases v with
    | other tag => simp [mem.removeExpiredRequests, h]
    | stamps s =>
      by_cases h0 : s.len = 0
      · simp [mem.removeExpiredRequests, h, h0]
      · rw [mem_removeExpiredRequests_stamps r key now s h h0]
        refine ⟨rfl, rfl, by simp, ?_, fun k hk => mem_Store_other _ _ _ _ hk⟩
        intro b
        simp only
        by_cases hb : b = s.arr
        · subst hb
          by_cases hlt : s.arr < r.Arrays.length
          · rw [array_set_same _ _ _ hlt]
            exact (mem_compact_fold _ _ _ _ _).1
          · simp [mem.Heap.array, List.getD_eq_getElem?_getD, List.set_eq_of_length_le (not_lt.1 hlt)]
        · rw [array_set_other _ _ _ _ hb]

theorem mem_removeExpiredRequests_array_other (r : mem.RateLimiter) (key : String) (now : Time)
    (b : Nat) (hb : ∀ s, r.RequestMap.Load key = some (mem.Value.stamps s) → b ≠ s.arr) :
    (mem.removeExpiredRequests r key now).Arrays.array b = r.Arrays.array b := by
  cases h : r.RequestMap.Load key with
  | none => simp [mem.removeExpiredRequests, h]
  | some v =>
    cases v with
    | other tag => simp [mem.removeExpiredRequests, h]
    | stamps s =>
      by_cases h0 : s.len = 0
      · simp [mem.removeExpiredRequests, h, h0]
      · rw [mem_removeExpiredRequests_stamps r key now s h h0]
        exact array_set_other _ _ _ _ (hb s h)

theorem mem_removeExpiredRequests_contents_key (r : mem.RateLimiter) (key : String) (now : Time)
    (hwf : mem.WellFormed r) (s : mem.Slice)
    (h : r.RequestMap.Load key = some (mem.Value.stamps s)) :
    mem.contents (mem.removeExpiredRequests r key now) key
      = some (Value.stamps
          ((r.Arrays.view s).filter (fun ts => decide (window now r.Duration < ts)))) := by
  obtain ⟨ha, hlc, hcap⟩ := hwf key s h
  by_cases h0 : s.len = 0
  · have hv : r.Arrays.view s = [] := by simp [mem.Heap.view, h0]
    simp [mem.removeExpiredRequests, mem.contents, h, h0, hv]
  · rw [mem_removeExpiredRequests_stamps r key now s h h0]
    simp only [mem.contents, mem_Store_same]
    obtain ⟨_, _, g⟩ := mem_compact_view (window now r.Duration) (r.Arrays.array s.arr) s.off
      s.len (by omega)
    simp only [mem.Heap.view, array_set_same _ _ _ ha, g]

theorem mem_contents_congr (r r' : mem.RateLimiter) (k : String)
    (hm : r'.RequestMap.Load k = r.RequestMap.Load k)
    (ha : ∀ s, r.RequestMap.Load k = some (mem.Value.stamps s) →
      r'.Arrays.array s.arr = r.Arrays.array s.arr) :
    mem.contents r' k = mem.contents r k := by
  simp only [mem.contents, hm]
  cases h : r.RequestMap.Load k with
  | none => rfl
  | some v =>
    cases v with
    | other tag => rfl
    | stamps s => simp only [mem.Heap.view, ha s h]

/-- On a limiter whose slice under `key` has its backing array to itself,
`removeExpiredRequests` on the arrays is `removeExpiredRequests` on the sequences. -/
theorem mem_removeExpiredRequests_abs (r : mem.RateLimiter) (key : String) (now : Time)
    (hwf : mem.WellFormed r) (hown : mem.OwnArray r key) :
    mem.abs (mem.removeExpiredRequests r key now) = removeExpiredRequests (mem.abs r) key now := by
  have f := mem_removeExpiredRequests_frame r key now
  have fl := removeExpiredRequests_frame (mem.abs r) key now
  apply limiter_ext
  · rw [fl.1]; exact f.1
  · rw [fl.2.1]; exact f.2.1
  · intro k
    by_cases hk : k = key
    · subst hk
      show mem.contents (mem.removeExpiredRequests r k now) k = _
      cases h : r.RequestMap.Load k with
      | none =>
        have hl : (mem.abs r).RequestMap.Load k = none := by
          show mem.contents r k = none
          simp [mem.contents, h]
        rw [removeExpiredRequests_none _ k now hl, hl]
        simp [mem.removeExpiredRequests, mem.contents, h]
      | some v =>
        cases v with
        | other tag =>
          have hl : (mem.abs r).RequestMap.Load k = some (Value.other tag) := by
            show mem.contents r k = _
            simp [mem.contents, h]
          rw [removeExpiredRequests_other _ k now tag hl, hl]
          simp [mem.removeExpiredRequests, mem.contents, h]
        | stamps s =>
          have hl : (mem.abs r).RequestMap.Load k = some (Value.stamps (r.Arrays.view s)) := by
            show mem.contents r k = _
            simp [mem.contents, h]
          rw [removeExpiredRequests_stamps _ k now _ hl, mem_removeExpiredRequests_contents_key r k
            now hwf s h]
          exact (Store_same _ _ _).symm
    · rw [fl.2.2 k hk]
      show mem.contents (mem.removeExpiredRequests r key now) k = mem.contents r k
      apply mem_contents_congr _ _ _ (f.2.2.2.2 k hk)
      intro s2 h2
      apply mem_removeExpiredRequests_array_other
      intro s hs
      exact hown k s s2 hk hs h2

/-- The header that `removeExpiredRequests` leaves under a key is the header it found
there, with a length that is not larger. -/
theorem mem_removeExpiredRequests_header (r : mem.RateLimiter) (key : String) (now : Time)
    (hwf : mem.WellFormed r) (k : String) (s' : mem.Slice)
    (h' : (mem.removeExpiredRequests r key now).RequestMap.Load k = some (mem.Value.stamps s')) :
    ∃ s, r.RequestMap.Load k = some (mem.Value.stamps s) ∧
      s'.arr = s.arr ∧ s'.off = s.off ∧ s'.cap = s.cap ∧ s'.len ≤ s.len := by
  by_cases hk : k = key
  · subst hk
    cases h : r.RequestMap.Load k with
    | none => simp [mem.removeExpiredRequests, h] at h'
    | some v =>
      cases v with
      | other tag => simp [mem.removeExpiredRequests, h] at h'
      | stamps s =>
        by_cases h0 : s.len = 0
        · simp only [mem.removeExpiredRequests, h, h0, if_true] at h'
          cases h'
          exact ⟨_, rfl, rfl, rfl, rfl, le_refl _⟩
        · rw [mem_removeExpiredRequests_stamps r k now s h h0] at h'
          simp only [mem_Store_same, Option.some.injEq, mem.Value.stamps.injEq] at h'
          obtain ⟨_, hlc, hcap⟩ := hwf k s h
          obtain ⟨_, g, _⟩ := mem_compact_view (window now r.Duration) (r.Arrays.array s.arr) s.off
            s.len (by omega)
          subst h'
          exact ⟨s, rfl, rfl, rfl, rfl, g⟩
  · rw [(mem_removeExpiredRequests_frame r key now).2.2.2.2 k hk] at h'
    exact ⟨s', h', rfl, rfl, rfl, le_refl _⟩

theorem mem_removeExpiredRequests_wf (r : mem.RateLimiter) (key : String) (now : Time)
    (hwf : mem.WellFormed r) : mem.WellFormed (mem.removeExpiredRequests r key now) := by
  intro k s' h'
  obtain ⟨s, hs, e1, e2, e3, e4⟩ := mem_removeExpiredRequests_header r key now hwf k s' h'
  obtain ⟨ha, hlc, hcap⟩ := hwf k s hs
  have f := mem_removeExpiredRequests_frame r key now
  rw [f.2.2.1, f.2.2.2.1, e1, e2, e3]
  exact ⟨ha, by omega, hcap⟩

theorem mem_removeExpiredRequests_own (r : mem.RateLimiter) (key : String) (now : Time)
    (hwf : mem.WellFormed r) (key0 : String) (hown : mem.OwnArray r key0) :
    mem.OwnArray (mem.removeExpiredRequests r key now) key0 := by
  intro k s s' hk hs hs'
  obtain ⟨t, ht, e1, _⟩ := mem_removeExpiredRequests_header r key now hwf key0 s hs
  obtain ⟨t', ht', e1', _⟩ := mem_removeExpiredRequests_header r key now hwf k s' hs'
  rw [e1, e1']
  exact hown k t t' hk ht ht'

/-! ## `append` on backing arrays -/

theorem mem_append_spec (grow : Nat → Nat) (h : mem.Heap) (s : mem.Slice) (v : Time)
    (ha : s.arr < h.length) (hlc : s.len ≤ s.cap)
    (hcap : s.off + s.cap ≤ (h.array s.arr).length) :
    (mem.append grow h s v).1.view (mem.append grow h s v).2 = h.view s ++ [v] ∧
    (∀ b, b ≠ s.arr → b < h.length → (mem.append grow h s v).1.array b = h.array b) ∧
    h.length ≤ (mem.append grow h s v).1.length ∧
    (∀ b, b < h.length → ((mem.append grow h s v).1.array b).length = (h.array b).length) ∧
    (mem.append grow h s v).2.arr < (mem.append grow h s v).1.length ∧
    (mem.append grow h s v).2.len ≤ (mem.append grow h s v).2.cap ∧
    (mem.append grow h s v).2.off + (mem.append grow h s v).2.cap
      ≤ ((mem.append grow h s v).1.array (mem.append grow h s v).2.arr).length ∧
    ((mem.append grow h s v).2.arr = s.arr ∨ (mem.append grow h s v).2.arr = h.length) := by
  unfold mem.append
  by_cases hlt : s.len < s.cap
  · simp only [hlt, if_true]
    refine ⟨?_, ?_, by simp, ?_, by simpa using ha, by omega, ?_, by simp⟩
    · simp only [mem.Heap.view, array_set_same _ _ _ ha]
      rw [List.drop_set]
      simp only [Nat.not_lt_of_le (Nat.le_add_right s.off s.len), if_false, Nat.add_sub_cancel_left]
      rw [take_succ_set]
      simp only [List.length_drop]
      omega
    · intro b hb _
      exact array_set_other _ _ _ _ hb
    · intro b _
      by_cases hb : b = s.arr
      · subst hb
        rw [array_set_same _ _ _ ha]
        simp
      · rw [array_set_other _ _ _ _ hb]
    · simp only [array_set_same _ _ _ ha, List.length_set]
      exact hcap
  · simp only [hlt, if_false]
    have hvl : (h.view s).length = s.len := view_length h s (by omega)
    refine ⟨?_, ?_, by simp, ?_, by simp, by omega, ?_, by simp⟩
    · simp only [mem.Heap.view, array_append_new, List.drop_zero]
      have : s.len + 1 = (List.take s.len (List.drop s.off (h.array s.arr)) ++ [v]).length := by
        have := hvl
        simp only [mem.Heap.view] at this
        simp [this]
      rw [List.append_assoc, ← List.append_assoc, this, List.take_left']
      rfl
    · intro b _ hb
      exact array_append_old _ _ _ hb
    · intro b hb
      rw [array_append_old _ _ _ hb]
    · simp only [array_append_new, List.length_append, hvl, List.length_singleton,
        List.length_replicate]
      omega

/-! ## `AllowRequest` on backing arrays -/

/-- Storing a slice under `key` after writes that leave the arrays of the other keys as
they are: on the sequences this is one `Store` of the new contents. -/
theorem mem_abs_update (r1 : mem.RateLimiter) (key : String) (h' : mem.Heap) (s' : mem.Slice)
    (hother : ∀ k s2, k ≠ key → r1.RequestMap.Load k = some (mem.Value.stamps s2) →
      h'.array s2.arr = r1.Arrays.array s2.arr) :
    mem.abs { r1 with Arrays := h', RequestMap := r1.RequestMap.Store key (mem.Value.stamps s') }
      = { mem.abs r1 with
          RequestMap := ((mem.abs r1).RequestMap.Store key (Value.stamps (h'.view s'))) } := by
  apply limiter_ext
  · rfl
  · rfl
  · intro k
    by_cases hk : k = key
    · subst hk
      rw [Store_same]
      show mem.contents _ k = _
      simp only [mem.contents, mem_Store_same]
    · rw [Store_other _ _ _ _ hk]
      show mem.contents _ k = mem.contents r1 k
      exact mem_contents_congr r1 _ k (mem_Store_other _ _ _ _ hk) (fun s2 h2 => hother k s2 hk h2)

/-- Storing a slice under `key` keeps the limiter well formed and its slices apart,
when the arrays keep their lengths and the slice lies in the array `key` had or in a
new one. -/
theorem mem_update_inv (r1 : mem.RateLimiter) (key : String) (h' : mem.Heap) (s' : mem.Slice)
    (hwf : mem.WellFormed r1) (hsep : mem.Separate r1)
    (hlen : r1.Arrays.length ≤ h'.length)
    (harr : ∀ b, b < r1.Arrays.length → (h'.array b).length = (r1.Arrays.array b).length)
    (hs1 : s'.arr < h'.length) (hs2 : s'.len ≤ s'.cap)
    (hs3 : s'.off + s'.cap ≤ (h'.array s'.arr).length)
    (hfresh : (∃ s, r1.RequestMap.Load key = some (mem.Value.stamps s) ∧ s'.arr = s.arr) ∨
      r1.Arrays.length ≤ s'.arr) :
    mem.WellFormed
      { r1 with Arrays := h', RequestMap := r1.RequestMap.Store key (mem.Value.stamps s') } ∧
    mem.Separate
      { r1 with Arrays := h', RequestMap := r1.RequestMap.Store key (mem.Value.stamps s') } := by
  have hnew : ∀ k s2, k ≠ key → r1.RequestMap.Load k = some (mem.Value.stamps s2) →
      s2.arr ≠ s'.arr := by
    intro k s2 hk h2
    rcases hfresh with ⟨s, hs, e⟩ | hge
    · rw [e]; exact hsep key k s s2 hk hs h2
    · have := (hwf k s2 h2).1
      omega
  constructor
  · intro k s2 h2
    simp only at h2 ⊢
    by_cases hk : k = key
    · subst hk
      rw [mem_Store_same] at h2
      cases h2
      exact ⟨hs1, hs2, hs3⟩
    · rw [mem_Store_other _ _ _ _ hk] at h2
      obtain ⟨a1, a2, a3⟩ := hwf k s2 h2
      rw [harr _ a1]
      exact ⟨by omega, a2, a3⟩
  · intro key0 k s s2 hk hs h2
    simp only at hs h2
    by_cases hk0 : key0 = key
    · subst hk0
      rw [mem_Store_same] at hs
      cases hs
      rw [mem_Store_other _ _ _ _ hk] at h2
      exact hnew k s2 hk h2
    · rw [mem_Store_other _ _ _ _ hk0] at hs
      by_cases hkk : k = key
      · subst hkk
        rw [mem_Store_same] at h2
        cases h2
        exact Ne.symm (hnew key0 s hk0 hs)
      · rw [mem_Store_other _ _ _ _ hkk] at h2
        exact hsep key0 k s s2 hk hs h2

/-- On a limiter whose slice under `key` has its backing array to itself, `AllowRequest`
on the arrays returns what `AllowRequest` on the sequences returns, and leaves the
sequences that it leaves. -/
theorem mem_AllowRequest_abs (grow : Nat → Nat) (r : mem.RateLimiter) (key : String) (now : Time)
    (hwf : mem.WellFormed r) (hown : mem.OwnArray r key) :
    (mem.AllowRequest grow r key now).1 = (AllowRequest (mem.abs r) key now).1 ∧
    mem.abs (mem.AllowRequest grow r key now).2 = (AllowRequest (mem.abs r) key now).2 := by
  have habs := mem_removeExpiredRequests_abs r key now hwf hown
  have hwf1 := mem_removeExpiredRequests_wf r key now hwf
  have hown1 := mem_removeExpiredRequests_own r key now hwf key hown
  simp only [mem.AllowRequest, AllowRequest, AllowRequestAt]
  rw [← habs]
  generalize mem.removeExpiredRequests r key now = r1 at hwf1 hown1
  cases h1 : r1.RequestMap.Load key with
  | none =>
    have hl : (mem.abs r1).RequestMap.Load key = none := by
      show mem.contents r1 key = none
      simp [mem.contents, h1]
    simp only [hl]
    refine ⟨by simp, ?_⟩
    rw [mem_abs_update r1 key _ _ (fun k s2 _ h2 => array_append_old _ _ _ (hwf1 k s2 h2).1)]
    simp [mem.Heap.view, array_append_new]
  | some v =>
    cases v with
    | other tag =>
      have hl : (mem.abs r1).RequestMap.Load key = some (Value.other tag) := by
        show mem.contents r1 key = _
        simp [mem.contents, h1]
      simp only [hl]
      exact ⟨by simp, by simp⟩
    | stamps s1 =>
      obtain ⟨a1, a2, a3⟩ := hwf1 key s1 h1
      have hl : (mem.abs r1).RequestMap.Load key = some (Value.stamps (r1.Arrays.view s1)) := by
        show mem.contents r1 key = _
        simp [mem.contents, h1]
      have hvl : (r1.Arrays.view s1).length = s1.len := view_length _ _ (by omega)
      have hLim : (mem.abs r1).Limit = r1.Limit := rfl
      simp only [hl, hvl, hLim]
      split
      · refine ⟨rfl, ?_⟩
        obtain ⟨b1, b2, _⟩ := mem_append_spec grow r1.Arrays s1 now a1 a2 a3
        rw [mem_abs_update r1 key _ _
          (fun k s2 hk h2 => b2 s2.arr (hown1 k s1 s2 hk h1 h2) (hwf1 k s2 h2).1), b1]
        rfl
      · exact ⟨rfl, rfl⟩

/-- `AllowRequest` keeps the limiter well formed and its slices apart: a slice it stores
lies in the array the key had or in a newly allocated one. -/
theorem mem_AllowRequest_inv (grow : Nat → Nat) (r : mem.RateLimiter) (key : String) (now : Time)
    (hwf : mem.WellFormed r) (hsep : mem.Separate r) :
    mem.WellFormed (mem.AllowRequest grow r key now).2 ∧
    mem.Separate (mem.AllowRequest grow r key now).2 := by
  have hwf1 := mem_removeExpiredRequests_wf r key now hwf
  have hsep1 : mem.Separate (mem.removeExpiredRequests r key now) :=
    fun key0 => mem_removeExpiredRequests_own r key now hwf key0 (hsep key0)
  simp only [mem.AllowRequest]
  generalize mem.removeExpiredRequests r key now = r1 at hwf1 hsep1
  cases h1 : r1.RequestMap.Load key with
  | none =>
    exact mem_update_inv r1 key _ _ hwf1 hsep1 (by simp)
      (fun b hb => by rw [array_append_old _ _ _ hb]) (by simp) (le_refl _)
      (by simp [array_append_new]) (Or.inr (le_refl _))
  | some v =>
    cases v with
    | other tag => exact ⟨hwf1, hsep1⟩
    | stamps s1 =>
      obtain ⟨a1, a2, a3⟩ := hwf1 key s1 h1
      simp only
      split
      · obtain ⟨_, _, b3, b4, b5, b6, b7, b8⟩ := mem_append_spec grow r1.Arrays s1 now a1 a2 a3
        refine mem_update_inv r1 key _ _ hwf1 hsep1 b3 b4 b5 b6 b7 ?_
        rcases b8 with e | e
        · exact Or.inl ⟨s1, h1, e⟩
        · exact Or.inr (le_of_eq e.symm)
      · exact ⟨hwf1, hsep1⟩

theorem mem_AllowRequest_frame (grow : Nat → Nat) (r : mem.RateLimiter) (key : String)
    (now : Time) :
    (mem.AllowRequest grow r key now).2.Limit = r.Limit ∧
    (mem.AllowRequest grow r key now).2.Duration = r.Duration ∧
    (∀ k, k ≠ key →
      (mem.AllowRequest grow r key now).2.RequestMap.Load k = r.RequestMap.Load k) := by
  have f := mem_removeExpiredRequests_frame r key now
  simp only [mem.AllowRequest]
  generalize mem.removeExpiredRequests r key now = r1 at f
  cases h1 : r1.RequestMap.Load key with
  | none =>
    exact ⟨f.1, f.2.1, fun k hk => by
      simp only; rw [mem_Store_other _ _ _ _ hk]; exact f.2.2.2.2 k hk⟩
  | some v =>
    cases v with
    | other tag => exact ⟨f.1, f.2.1, f.2.2.2.2⟩
    | stamps s1 =>
      simp only
      split
      · exact ⟨f.1, f.2.1, fun k hk => by
          simp only; rw [mem_Store_other _ _ _ _ hk]; exact f.2.2.2.2 k hk⟩
      · exact ⟨f.1, f.2.1, f.2.2.2.2⟩

/-- The empty limiter of `NewRateLimiter` is well formed and holds no two slices over
one array. -/
theorem mem_NewRateLimiter_inv (arrays : mem.Heap) (limit : Int) (duration : Duration) :
    mem.WellFormed (mem.NewRateLimiter arrays limit duration) ∧
    mem.Separate (mem.NewRateLimiter arrays limit duration) := by
  constructor
  · intro k s h
    simp [mem.NewRateLimiter, mem.SyncMap.Load] at h
  · intro key k s s' _ h
    simp [mem.NewRateLimiter, mem.SyncMap.Load] at h

/-- A run of `AllowRequest` calls on well formed, separate slices returns what the run
on the sequences returns, and ends well formed and separate. -/
theorem mem_runAllow_abs (grow : Nat → Nat) (calls : List (String × Time)) :
    ∀ r : mem.RateLimiter, mem.WellFormed r → mem.Separate r →
      (mem.runAllow grow r calls).1 = (runAllow (mem.abs r) calls).1 ∧
      mem.WellFormed (mem.runAllow grow r calls).2 ∧
      mem.Separate (mem.runAllow grow r calls).2 := by
  induction calls with
  | nil => intro r hwf hsep; exact ⟨rfl, hwf, hsep⟩
  | cons c rest ih =>
    intro r hwf hsep
    obtain ⟨k, t⟩ := c
    obtain ⟨e1, e2⟩ := mem_AllowRequest_abs grow r k t hwf (hsep k)
    obtain ⟨i1, i2⟩ := mem_AllowRequest_inv grow r k t hwf hsep
    obtain ⟨j1, j2, j3⟩ := ih (mem.AllowRequest grow r k t).2 i1 i2
    simp only [mem.runAllow, runAllow]
    rw [e2] at j1
    exact ⟨by rw [e1, j1], j2, j3⟩

theorem mem_resultsOn_abs (grow : Nat → Nat) (key : String) (calls : List (String × Time))
    (r : mem.RateLimiter) (hwf : mem.WellFormed r) (hsep : mem.Separate r) :
    mem.resultsOn grow key r calls = resultsOn key (mem.abs r) calls := by
  simp only [mem.resultsOn, resultsOn, (mem_runAllow_abs grow calls r hwf hsep).1]

/-- A limiter with two slices stored directly over one array is well formed when
both slices lie inside the array. -/
theorem mem_shared_wf (limit : Int) (duration : Duration) (array : List Time)
    (s1 s2 : mem.Slice) (h1 : s1.len ≤ s1.cap) (h1' : s1.off + s1.cap ≤ array.length)
    (h2 : s2.len ≤ s2.cap) (h2' : s2.off + s2.cap ≤ array.length)
    (ha1 : s1.arr = 0) (ha2 : s2.arr = 0) :
    mem.WellFormed (mem.shared limit duration array s1 s2) := by
  intro key s h
  simp only [mem.shared, mem.SyncMap.Load, mem.SyncMap.Store] at h
  have hs : s = s1 ∨ s = s2 := by
    split at h
    · right; cases h; rfl
    · split at h
      · left; cases h; rfl
      · cases h
  have harr : mem.Heap.array [array] 0 = array := rfl
  rcases hs with rfl | rfl
  · simp only [mem.shared, ha1, harr, List.length_singleton]
    exact ⟨by omega, h1, h1'⟩
  · simp only [mem.shared, ha2, harr, List.length_singleton]
    exact ⟨by omega, h2, h2'⟩

/-! ## Claims -/

/-- C1. Decision rule of `AllowRequest`, for every limiter, key and clock reading `now`:
the call returns `true` exactly when the key is absent from the map or the number of
stored timestamps strictly after the cutoff `now.Add(-Duration)` is below `Limit`; and
when it returns `true`, the sequence stored afterwards is `[now]` for an absent key and
otherwise the stored entries strictly after the cutoff, in their order, followed by `now`. -/
theorem AllowRequest_decision_rule (r : RateLimiter) (key : String) (now : Time) :
    ((AllowRequest r key now).1 = true ↔
      (r.RequestMap.Load key = none ∨
        ∃ xs, r.RequestMap.Load key = some (Value.stamps xs) ∧
          ((xs.filter (fun ts => decide (window now r.Duration < ts))).length : Int) < r.Limit)) ∧
    ((AllowRequest r key now).1 = true →
      (r.RequestMap.Load key = none →
        (AllowRequest r key now).2.RequestMap.Load key = some (Value.stamps [now])) ∧
      (∀ xs, r.RequestMap.Load key = some (Value.stamps xs) →
        (AllowRequest r key now).2.RequestMap.Load key =
          some (Value.stamps
            (xs.filter (fun ts => decide (window now r.Duration < ts)) ++ [now])))) := by
  cases h : r.RequestMap.Load key with
  | none =>
    rw [AllowRequest_absent r key now h]
    simp [Store_same]
  | some v =>
    cases v with
    | other tag =>
      rw [AllowRequest_other r key now tag h]
      simp
    | stamps xs =>
      rw [AllowRequest_stamps r key now xs h]
      by_cases hlt :
          ((xs.filter (fun ts => decide (window now r.Duration < ts))).length : Int) < r.Limit
      · simp [hlt, Store_same]
      · simp [hlt]

/-- Witness of C1: limit 2, window 10, stored `[0, 5]`, call at 10. -/
theorem AllowRequest_decision_rule_witness :
    (AllowRequest (seeded 2 (Duration.ofInt 10) "user1" [0, 5]) "user1" 10).1 = true ∧
    (AllowRequest (seeded 2 (Duration.ofInt 10) "user1" [0, 5]) "user1" 10).2.RequestMap.Load
      "user1" = some (Value.stamps [5, 10]) :=
  ⟨by decide,
   ((AllowRequest_decision_rule (seeded 2 (Duration.ofInt 10) "user1" [0, 5]) "user1" 10).2
      (by decide)).2 [0, 5] (by decide)⟩

/-- C2. Exact-limit law: with `Limit = N >= 1` and a window `w > 0`, on a key absent from
the map, `N + 1` consecutive `AllowRequest` calls at non-decreasing times
`t1 <= ... <= t_{N+1}` with `t_{N+1} - w < t1` return `true` `N` times and then `false`. -/
theorem AllowRequest_exact_limit (N : Nat) (hN : 1 ≤ N) (r : RateLimiter) (hL : r.Limit = N)
    (hw : 0 < r.Duration.ns) (key : String) (habs : r.RequestMap.Load key = none)
    (t1 : Time) (rest : List Time) (hlen : rest.length = N)
    (hmono : (t1 :: rest).Pairwise (fun a b => a ≤ b))
    (hlive : (t1 :: rest).getLast (List.cons_ne_nil t1 rest) - r.Duration.ns < t1) :
    (runAllow r ((t1 :: rest).map (fun t => (key, t)))).1 = List.replicate N true ++ [false] := by
  have hwin : ∀ t, window t r.Duration = t - r.Duration.ns :=
    fun t => window_eq_sub_of_pos t _ hw
  have hlast : ∀ t ∈ t1 :: rest, window t r.Duration < t1 := by
    intro t ht
    have := le_getLast_of_pairwise (t1 :: rest) (List.cons_ne_nil _ _) hmono t ht
    rw [hwin]
    unfold Time at *
    omega
  have hfirst : ∀ t ∈ rest, t1 ≤ t := (List.pairwise_cons.1 hmono).1
  simp only [List.map_cons, runAllow]
  rw [AllowRequest_absent r key t1 habs]
  simp only
  rw [runAllow_live N key rest ⟨r.RequestMap.Store key (Value.stamps [t1]), r.Limit, r.Duration⟩
    [t1] hL (Store_same _ _ _)]
  · simp only [List.length_singleton, hlen]
    have e1 : min N (N - 1) = N - 1 := by omega
    have e2 : N - (N - 1) = 1 := by omega
    rw [e1, e2, ← List.cons_append, ← List.replicate_succ]
    have e3 : N - 1 + 1 = N := by omega
    rw [e3]
    rfl
  · intro t ht s hs
    rw [List.mem_singleton.1 hs]
    exact hlast t (List.mem_cons_of_mem _ ht)
  · intro t _
    show window t r.Duration < t
    rw [hwin]
    unfold Time at *
    omega
  · have hp := (List.pairwise_cons.1 hmono).2
    rw [List.pairwise_iff_forall_sublist] at hp ⊢
    intro a b hab
    have hb : b ∈ rest := hab.subset (List.mem_cons_of_mem _ (List.mem_singleton_self _))
    have ha : a ∈ rest := hab.subset (List.mem_cons_self _ _)
    exact lt_of_lt_of_le (hlast b (List.mem_cons_of_mem _ hb)) (hfirst a ha)

/-- Witness of C2: the test `testRateLimiter_ExactLimit`, limit 3, four calls. -/
theorem AllowRequest_exact_limit_witness :
    (runAllow (NewRateLimiter 3 (Duration.ofInt 10))
      [("user1", 0), ("user1", 1), ("user1", 1), ("user1", 2)]).1 = [true, true, true, false] :=
  AllowRequest_exact_limit 3 (by decide) (NewRateLimiter 3 (Duration.ofInt 10)) (by decide)
    (by decide) "user1" (by decide) 0 [1, 1, 2] (by decide) (by decide) (by decide)

/-- C3. Trailing-window bound: with `Limit = N >= 1` and a window `w > 0`, for every
sequence of `AllowRequest` and `removeExpiredRequests` calls on any keys, executed one
after another at non-decreasing times from the empty limiter, and for every key and
instant `t`, the `AllowRequest` calls on that key that returned `true` at a time in
`(t - w, t]` number at most `N`. -/
theorem AllowRequest_trailing_window_bound (N : Nat) (hN : 1 ≤ N) (w : Duration)
    (hw : 0 < w.ns) (calls : List Call)
    (hmono : (calls.map Call.time).Pairwise (fun a b => a ≤ b)) (key : String) (t : Time) :
    (runCalls (NewRateLimiter N w) calls).1.countP
      (fun a => decide (a.1 = key ∧ t - w.ns < a.2 ∧ a.2 ≤ t)) ≤ N := by
  have h := runCalls_window_bound N hN key t calls (NewRateLimiter N w) rfl hw
    (Nat.zero_le _) hmono
  have h0 : (stampsOf ((NewRateLimiter N w).RequestMap.Load key)).countP
      (fun s => decide (t - (NewRateLimiter N w).Duration.ns < s)) = 0 := rfl
  rw [h0, Nat.zero_add] at h
  exact h

/-- Witness of C3: limit 2, window 10; the admissions are at 0, 5, 10 and 15, and two of
them fall in `(5, 15]`. -/
theorem AllowRequest_trailing_window_bound_witness :
    (runCalls (NewRateLimiter 2 (Duration.ofInt 10))
      [Call.allow "user1" 0, Call.allow "user1" 5, Call.allow "user1" 10, Call.allow "user1" 10,
        Call.prune "user1" 12, Call.allow "user2" 13, Call.allow "user1" 15]).1
      = [("user1", 0), ("user1", 5), ("user1", 10), ("user2", 13), ("user1", 15)] ∧
    (runCalls (NewRateLimiter 2 (Duration.ofInt 10))
      [Call.allow "user1" 0, Call.allow "user1" 5, Call.allow "user1" 10, Call.allow "user1" 10,
        Call.prune "user1" 12, Call.allow "user2" 13, Call.allow "user1" 15]).1.countP
      (fun a => decide (a.1 = "user1" ∧ 15 - (Duration.ofInt 10).ns < a.2 ∧ a.2 ≤ 15)) ≤ 2 :=
  ⟨by decide,
   AllowRequest_trailing_window_bound 2 (by decide) (Duration.ofInt 10) (by decide)
    [Call.allow "user1" 0, Call.allow "user1" 5, Call.allow "user1" 10, Call.allow "user1" 10,
      Call.prune "user1" 12, Call.allow "user2" 13, Call.allow "user1" 15] (by decide)
    "user1" 15⟩

/-- Counterexample to C4: one array `[0, 7, 8, 3, 9]`, `user1` holds its first five
elements and `user2` its first three, limit 3, window 10. After the call on `user1` at 13
the call on `user2` at 13 returns `false`; run alone it returns `true`. -/
theorem AllowRequest_independence_counterexample :
    mem.WellFormed
      (mem.shared 3 (Duration.ofInt 10) [0, 7, 8, 3, 9] ⟨0, 0, 5, 5⟩ ⟨0, 0, 3, 5⟩) ∧
    mem.resultsOn (fun c => 2 * c) "user2"
      (mem.shared 3 (Duration.ofInt 10) [0, 7, 8, 3, 9] ⟨0, 0, 5, 5⟩ ⟨0, 0, 3, 5⟩)
      [("user1", 13), ("user2", 13)] = [false] ∧
    (mem.runAllow (fun c => 2 * c)
      (mem.shared 3 (Duration.ofInt 10) [0, 7, 8, 3, 9] ⟨0, 0, 5, 5⟩ ⟨0, 0, 3, 5⟩)
      ([("user1", 13), ("user2", 13)].filter (fun c => decide (c.1 = "user2")))).1 = [true] :=
  ⟨mem_shared_wf _ _ _ _ _ (by decide) (by decide) (by decide) (by decide) rfl rfl, by decide, by decide⟩

/-- C4, amended. Independence law, for every limiter in which no two keys hold slices
over one backing array (each slice lying inside its array, as a Go slice does): in
every run of `AllowRequest` calls the results returned for the
calls on a key `k2` are the results of running only the calls on `k2` from the same
limiter; so two runs with the same calls on `k2`, whatever their calls on other keys,
return the same results for `k2`. -/
theorem AllowRequest_independence_separate (grow : Nat → Nat) (r : mem.RateLimiter)
    (hwf : mem.WellFormed r) (hsep : mem.Separate r) (k2 : String)
    (calls : List (String × Time)) :
    mem.resultsOn grow k2 r calls
      = (mem.runAllow grow r (calls.filter (fun c => decide (c.1 = k2)))).1 ∧
    (∀ calls' : List (String × Time),
      calls'.filter (fun c => decide (c.1 = k2)) = calls.filter (fun c => decide (c.1 = k2)) →
      mem.resultsOn grow k2 r calls' = mem.resultsOn grow k2 r calls) := by
  have key : ∀ cs : List (String × Time), mem.resultsOn grow k2 r cs
      = (mem.runAllow grow r (cs.filter (fun c => decide (c.1 = k2)))).1 := by
    intro cs
    rw [mem_resultsOn_abs grow k2 cs r hwf hsep,
      resultsOn_eq_of_agree k2 cs (mem.abs r) (mem.abs r) rfl rfl rfl,
      (mem_runAllow_abs grow _ r hwf hsep).1]
  refine ⟨key calls, fun calls' h => ?_⟩
  rw [key calls', key calls, h]

/-- Witness of C4: the test `testRateLimiter_WithDifferentUsers` from the limiter of
`NewRateLimiter`; the results of `user2` are those of its own calls. -/
theorem AllowRequest_independence_separate_witness :
    mem.resultsOn (fun c => 2 * c) "user2" (mem.NewRateLimiter [] 1 (Duration.ofInt 10))
      [("user1", 0), ("user1", 0), ("user2", 0), ("user2", 0)] =
    (mem.runAllow (fun c => 2 * c) (mem.NewRateLimiter [] 1 (Duration.ofInt 10))
      ([("user1", 0), ("user1", 0), ("user2", 0), ("user2", 0)].filter
        (fun c => decide (c.1 = "user2")))).1 :=
  (AllowRequest_independence_separate (fun c => 2 * c)
    (mem.NewRateLimiter [] 1 (Duration.ofInt 10))
    (mem_NewRateLimiter_inv [] 1 (Duration.ofInt 10)).1
    (mem_NewRateLimiter_inv [] 1 (Duration.ofInt 10)).2 "user2"
    [("user1", 0), ("user1", 0), ("user2", 0), ("user2", 0)]).1

/-- C5. Expiry/slide law: with `Limit >= 1`, for a key whose stored sequence holds only
timestamps at or before the cutoff `now.Add(-Duration)`, `AllowRequest` at `now`
returns `true` and the sequence stored afterwards is exactly `[now]` (this holds for
a non-empty stored sequence and for an empty one alike). -/
theorem AllowRequest_expiry_slide (r : RateLimiter) (key : String) (now : Time)
    (xs : RequestTimeStamps) (hL : 1 ≤ r.Limit)
    (h : r.RequestMap.Load key = some (Value.stamps xs))
    (hold : ∀ ts ∈ xs, ts ≤ window now r.Duration) :
    (AllowRequest r key now).1 = true ∧
    (AllowRequest r key now).2.RequestMap.Load key = some (Value.stamps [now]) := by
  have hf : xs.filter (fun ts => decide (window now r.Duration < ts)) = [] := by
    rw [List.filter_eq_nil_iff]
    intro ts hts
    simpa only [decide_eq_true_eq, not_lt] using hold ts hts
  rw [AllowRequest_stamps r key now xs h, hf]
  have h0 : ((([] : List Time).length : Nat) : Int) < r.Limit := by
    simp only [List.length_nil, Nat.cast_zero]; omega
  rw [if_pos h0]
  exact ⟨rfl, Store_same _ _ _⟩

/-- Witness of C5: the test `testRateLimit_RemoveExpiredRequestOnAdd`. -/
theorem AllowRequest_expiry_slide_witness :
    (AllowRequest (seeded 1 (Duration.ofInt 10) "user1" [90]) "user1" 100).1 = true ∧
    (AllowRequest (seeded 1 (Duration.ofInt 10) "user1" [90]) "user1" 100).2.RequestMap.Load
      "user1" = some (Value.stamps [100]) :=
  AllowRequest_expiry_slide (seeded 1 (Duration.ofInt 10) "user1" [90]) "user1" 100 [90]
    (by decide) (by decide) (by decide)

/-- C6. One aged-out entry frees exactly one slot: with `Limit = N >= 1` and a window
`w > 0`, when the key holds exactly `N` entries, exactly one of them at or before
`now - w` and the other `N - 1` strictly after it, `AllowRequest` at `now` returns `true`
and the next `AllowRequest` at the same `now` returns `false`. The time-spread scenario
(limit 2, window 10ms, calls at 0ms, 5ms, 10ms, 10ms, in nanoseconds) gives
`true, true, true, false`. -/
theorem AllowRequest_aged_out_entry_frees_one_slot :
    (∀ (r : RateLimiter) (key : String) (now : Time) (xs : RequestTimeStamps) (N : Nat),
      1 ≤ N → r.Limit = N → 0 < r.Duration.ns →
      r.RequestMap.Load key = some (Value.stamps xs) → xs.length = N →
      xs.countP (fun ts => decide (ts ≤ now - r.Duration.ns)) = 1 →
      xs.countP (fun ts => decide (now - r.Duration.ns < ts)) = N - 1 →
      (AllowRequest r key now).1 = true ∧
      (AllowRequest (AllowRequest r key now).2 key now).1 = false) ∧
    (runAllow (NewRateLimiter 2 (Duration.ofInt 10000000))
      [("user1", 0), ("user1", 5000000), ("user1", 10000000), ("user1", 10000000)]).1
      = [true, true, true, false] := by
  refine ⟨?_, by decide⟩
  intro r key now xs N hN hL hw h _ _ hlive
  have hwin : window now r.Duration = now - r.Duration.ns := window_eq_sub_of_pos now _ hw
  rw [← hwin, List.countP_eq_length_filter] at hlive
  have hlt : ((xs.filter (fun ts => decide (window now r.Duration < ts))).length : Int)
      < r.Limit := by
    rw [hlive, hL]; omega
  rw [AllowRequest_stamps r key now xs h, if_pos hlt]
  refine ⟨rfl, ?_⟩
  simp only
  have hnow : window now r.Duration < now := by
    rw [hwin]; unfold Time at *; omega
  rw [AllowRequest_stamps _ key now _ (Store_same _ _ _)]
  have hkeep : (xs.filter (fun ts => decide (window now r.Duration < ts)) ++ [now]).filter
      (fun ts => decide (window now r.Duration < ts))
      = xs.filter (fun ts => decide (window now r.Duration < ts)) ++ [now] := by
    rw [List.filter_append, List.filter_filter]
    simp [hnow]
  rw [hkeep, if_neg]
  simp only [List.length_append, List.length_singleton, hlive, hL]
  push_cast
  omega

/-- Witness of C6: limit 2, window 10, stored `[0, 5]`, two calls at 10. -/
theorem AllowRequest_aged_out_entry_frees_one_slot_witness :
    (AllowRequest (seeded 2 (Duration.ofInt 10) "user1" [0, 5]) "user1" 10).1 = true ∧
    (AllowRequest (AllowRequest (seeded 2 (Duration.ofInt 10) "user1" [0, 5]) "user1" 10).2
      "user1" 10).1 = false :=
  AllowRequest_aged_out_entry_frees_one_slot.1 (seeded 2 (Duration.ofInt 10) "user1" [0, 5])
    "user1" 10 [0, 5] 2 (by decide) (by decide) (by decide) (by decide) (by decide) (by decide)
    (by decide)

/-- C7. A rejected request is not counted: whenever `AllowRequest` returns `false`, the
limiter afterwards is exactly the one `removeExpiredRequests` alone produces at the same
reading; the sequence of the key is the pruned one, without an entry for this call. -/
theorem AllowRequest_rejected_not_counted (r : RateLimiter) (key : String) (now : Time)
    (hrej : (AllowRequest r key now).1 = false) :
    (AllowRequest r key now).2 = removeExpiredRequests r key now ∧
    (∀ xs, r.RequestMap.Load key = some (Value.stamps xs) →
      (AllowRequest r key now).2.RequestMap.Load key =
        some (Value.stamps (xs.filter (fun ts => decide (window now r.Duration < ts))))) := by
  cases h : r.RequestMap.Load key with
  | none =>
    rw [AllowRequest_absent r key now h] at hrej
    simp at hrej
  | some v =>
    cases v with
    | other tag =>
      rw [AllowRequest_other r key now tag h, removeExpiredRequests_other r key now tag h]
      simp
    | stamps xs =>
      rw [AllowRequest_stamps r key now xs h] at hrej ⊢
      by_cases hlt :
          ((xs.filter (fun ts => decide (window now r.Duration < ts))).length : Int) < r.Limit
      · rw [if_pos hlt] at hrej
        simp at hrej
      · rw [if_neg hlt]
        refine ⟨rfl, ?_⟩
        intro ys hys
        cases hys
        rw [removeExpiredRequests_stamps r key now xs h]
        exact Store_same _ _ _

/-- Witness of C7: limit 1, window 10, stored `[5]`, call at 6 is rejected. -/
theorem AllowRequest_rejected_not_counted_witness :
    (AllowRequest (seeded 1 (Duration.ofInt 10) "user1" [5]) "user1" 6).1 = false ∧
    (AllowRequest (seeded 1 (Duration.ofInt 10) "user1" [5]) "user1" 6).2 =
      removeExpiredRequests (seeded 1 (Duration.ofInt 10) "user1" [5]) "user1" 6 :=
  ⟨by decide,
   (AllowRequest_rejected_not_counted (seeded 1 (Duration.ofInt 10) "user1" [5]) "user1" 6
      (by decide)).1⟩

/-- Counterexample to C8: one array `[0, 7, 8, 3, 9]`, `user1` holds its first five
elements and `user2` its first three, limit 3, window 10. The call on `user1` at 13 is
rejected; after it the call on `user2` at 13 returns `false`, without it `true`. -/
theorem AllowRequest_rejected_no_effect_counterexample :
    mem.WellFormed
      (mem.shared 3 (Duration.ofInt 10) [0, 7, 8, 3, 9] ⟨0, 0, 5, 5⟩ ⟨0, 0, 3, 5⟩) ∧
    (mem.AllowRequest (fun c => 2 * c)
      (mem.shared 3 (Duration.ofInt 10) [0, 7, 8, 3, 9] ⟨0, 0, 5, 5⟩ ⟨0, 0, 3, 5⟩)
      "user1" 13).1 = false ∧
    ((13 : Time) :: [(("user2", 13) : String × Time)].map (fun c => c.2)).Pairwise
      (fun a b => a ≤ b) ∧
    (mem.runAllow (fun c => 2 * c)
      (mem.AllowRequest (fun c => 2 * c)
        (mem.shared 3 (Duration.ofInt 10) [0, 7, 8, 3, 9] ⟨0, 0, 5, 5⟩ ⟨0, 0, 3, 5⟩)
        "user1" 13).2 [("user2", 13)]).1 = [false] ∧
    (mem.runAllow (fun c => 2 * c)
      (mem.shared 3 (Duration.ofInt 10) [0, 7, 8, 3, 9] ⟨0, 0, 5, 5⟩ ⟨0, 0, 3, 5⟩)
      [("user2", 13)]).1 = [true] :=
  ⟨mem_shared_wf _ _ _ _ _ (by decide) (by decide) (by decide) (by decide) rfl rfl, by decide, by decide,
    by decide, by decide⟩

/-- C8, amended. Rejected requests do not affect future admission, for every limiter in
which no two keys hold slices over one backing array (each slice lying inside its array,
as a Go slice does): when `AllowRequest(k)` at `t`
returns `false` in a limiter `s`, every later run of `AllowRequest` calls at
non-decreasing times `>= t` returns, after the rejected call, the results it returns
from `s` itself. -/
theorem AllowRequest_rejected_no_effect_separate (grow : Nat → Nat) (s : mem.RateLimiter)
    (hwf : mem.WellFormed s) (hsep : mem.Separate s) (k : String) (t : Time)
    (hrej : (mem.AllowRequest grow s k t).1 = false) (calls : List (String × Time))
    (hmono : (t :: calls.map (fun c => c.2)).Pairwise (fun a b => a ≤ b)) :
    (mem.runAllow grow (mem.AllowRequest grow s k t).2 calls).1
      = (mem.runAllow grow s calls).1 := by
  obtain ⟨e1, e2⟩ := mem_AllowRequest_abs grow s k t hwf (hsep k)
  obtain ⟨i1, i2⟩ := mem_AllowRequest_inv grow s k t hwf hsep
  rw [(mem_runAllow_abs grow calls _ i1 i2).1, (mem_runAllow_abs grow calls s hwf hsep).1, e2]
  exact runAllow_after_rejection (mem.abs s) k t (by rw [← e1]; exact hrej) calls hmono

/-- Witness of C8: limit 1, window 10, from the limiter of `NewRateLimiter` after one
admitted call on `user1` at 5; the call at 6 is rejected, and the later calls at 7, 15,
16 return the same with and without it. -/
theorem AllowRequest_rejected_no_effect_separate_witness :
    (mem.AllowRequest (fun c => 2 * c)
      (mem.AllowRequest (fun c => 2 * c) (mem.NewRateLimiter [] 1 (Duration.ofInt 10))
        "user1" 5).2 "user1" 6).1 = false ∧
    (mem.runAllow (fun c => 2 * c)
      (mem.AllowRequest (fun c => 2 * c)
        (mem.AllowRequest (fun c => 2 * c) (mem.NewRateLimiter [] 1 (Duration.ofInt 10))
          "user1" 5).2 "user1" 6).2
      [("user1", 7), ("user2", 15), ("user1", 16)]).1 =
    (mem.runAllow (fun c => 2 * c)
      (mem.AllowRequest (fun c => 2 * c) (mem.NewRateLimiter [] 1 (Duration.ofInt 10))
        "user1" 5).2
      [("user1", 7), ("user2", 15), ("user1", 16)]).1 :=
  ⟨by decide,
   AllowRequest_rejected_no_effect_separate (fun c => 2 * c)
    (mem.AllowRequest (fun c => 2 * c) (mem.NewRateLimiter [] 1 (Duration.ofInt 10))
      "user1" 5).2
    (mem_AllowRequest_inv (fun c => 2 * c) (mem.NewRateLimiter [] 1 (Duration.ofInt 10)) "user1" 5
      (mem_NewRateLimiter_inv [] 1 (Duration.ofInt 10)).1
      (mem_NewRateLimiter_inv [] 1 (Duration.ofInt 10)).2).1
    (mem_AllowRequest_inv (fun c => 2 * c) (mem.NewRateLimiter [] 1 (Duration.ofInt 10)) "user1" 5
      (mem_NewRateLimiter_inv [] 1 (Duration.ofInt 10)).1
      (mem_NewRateLimiter_inv [] 1 (Duration.ofInt 10)).2).2
    "user1" 6 (by decide) [("user1", 7), ("user2", 15), ("user1", 16)] (by decide)⟩

/-- C9. `removeExpiredRequests` is a strict stable filter: for a key holding the
sequence `xs`, the sequence stored afterwards is `xs` filtered by `ts > cutoff`, where
the cutoff is `now.Add(-Duration)`; an entry equal to the cutoff is removed; and the
in-place loop with `validIndex` computes the list filter for every cutoff. -/
theorem removeExpiredRequests_strict_stable_filter (r : RateLimiter) (key : String) (now : Time)
    (xs : RequestTimeStamps) (h : r.RequestMap.Load key = some (Value.stamps xs)) :
    (removeExpiredRequests r key now).RequestMap.Load key =
        some (Value.stamps (xs.filter (fun ts => decide (window now r.Duration < ts)))) ∧
    window now r.Duration ∉ xs.filter (fun ts => decide (window now r.Duration < ts)) ∧
    (∀ w : Time, (compact w xs).1.take (compact w xs).2 = xs.filter (fun ts => decide (w < ts))) := by
  refine ⟨?_, ?_, fun w => compact_take w xs⟩
  · rw [removeExpiredRequests_stamps r key now xs h]
    exact Store_same _ _ _
  · simp [List.mem_filter]

/-- Witness of C9: window 10, stored `[0, 7, 3, 9]`, pruned at 13 (cutoff 3). -/
theorem removeExpiredRequests_strict_stable_filter_witness :
    (removeExpiredRequests (seeded 1 (Duration.ofInt 10) "user1" [0, 7, 3, 9]) "user1"
      13).RequestMap.Load "user1" = some (Value.stamps [7, 9]) :=
  (removeExpiredRequests_strict_stable_filter (seeded 1 (Duration.ofInt 10) "user1" [0, 7, 3, 9])
    "user1" 13 [0, 7, 3, 9] (by decide)).1

/-- C10. `removeExpiredRequests` never removes a key: a key holding a timestamp
sequence still holds one afterwards, and when every stored entry is at or before
the cutoff `now.Add(-Duration)` it holds the empty sequence. -/
theorem removeExpiredRequests_keeps_key (r : RateLimiter) (key : String) (now : Time)
    (xs : RequestTimeStamps) (h : r.RequestMap.Load key = some (Value.stamps xs)) :
    (∃ ys, (removeExpiredRequests r key now).RequestMap.Load key = some (Value.stamps ys)) ∧
    ((∀ ts ∈ xs, ts ≤ window now r.Duration) →
      (removeExpiredRequests r key now).RequestMap.Load key = some (Value.stamps [])) := by
  rw [removeExpiredRequests_stamps r key now xs h]
  refine ⟨⟨_, Store_same _ _ _⟩, fun hall => ?_⟩
  have : xs.filter (fun ts => decide (window now r.Duration < ts)) = [] := by
    rw [List.filter_eq_nil_iff]
    intro ts hts
    simpa only [decide_eq_true_eq, not_lt] using hall ts hts
  simp only [this]
  exact Store_same _ _ _

/-- Witness of C10: the test `testRateLimit_RemoveExpiredRequests`, one entry
exactly one window old. -/
theorem removeExpiredRequests_keeps_key_witness :
    (removeExpiredRequests (seeded 1 (Duration.ofInt 10) "user1" [90]) "user1"
      100).RequestMap.Load "user1" = some (Value.stamps []) :=
  (removeExpiredRequests_keeps_key (seeded 1 (Duration.ofInt 10) "user1" [90]) "user1" 100 [90]
    (by decide)).2 (by decide)

/-- C11. Empty-key pruning: for a key absent from the map, `removeExpiredRequests`
leaves the whole limiter unchanged, and the key is still absent afterwards. -/
theorem removeExpiredRequests_absent_key (r : RateLimiter) (key : String) (now : Time)
    (h : r.RequestMap.Load key = none) :
    removeExpiredRequests r key now = r ∧
    (removeExpiredRequests r key now).RequestMap.Load key = none := by
  rw [removeExpiredRequests_none r key now h]
  exact ⟨rfl, h⟩

/-- Witness of C11: pruning `user2` in a limiter that only holds `user1`. -/
theorem removeExpiredRequests_absent_key_witness :
    removeExpiredRequests (seeded 1 (Duration.ofInt 10) "user1" [5]) "user2" 100
      = seeded 1 (Duration.ofInt 10) "user1" [5] ∧
    (removeExpiredRequests (seeded 1 (Duration.ofInt 10) "user1" [5]) "user2"
      100).RequestMap.Load "user2" = none :=
  removeExpiredRequests_absent_key (seeded 1 (Duration.ofInt 10) "user1" [5]) "user2" 100
    (by decide)

/-- C12. Pruning without expired entries is the identity: for a key whose stored
sequence `xs` holds only timestamps strictly after the cutoff `now.Add(-Duration)`,
`removeExpiredRequests` at `now` leaves the stored sequence equal to `xs` (and with it
the whole limiter). -/
theorem removeExpiredRequests_no_expired (r : RateLimiter) (key : String) (now : Time)
    (xs : RequestTimeStamps) (h : r.RequestMap.Load key = some (Value.stamps xs))
    (hlive : ∀ ts ∈ xs, window now r.Duration < ts) :
    (removeExpiredRequests r key now).RequestMap.Load key = some (Value.stamps xs) ∧
    removeExpiredRequests r key now = r := by
  rw [removeExpiredRequests_stamps r key now xs h, filter_live_eq_self _ xs hlive,
    Store_Load _ _ _ h]
  exact ⟨h, rfl⟩

/-- Witness of C12: window 10, stored `[4, 9, 7]`, pruned at 13 (cutoff 3). -/
theorem removeExpiredRequests_no_expired_witness :
    (removeExpiredRequests (seeded 1 (Duration.ofInt 10) "user1" [4, 9, 7]) "user1"
      13).RequestMap.Load "user1" = some (Value.stamps [4, 9, 7]) :=
  (removeExpiredRequests_no_expired (seeded 1 (Duration.ofInt 10) "user1" [4, 9, 7]) "user1" 13
    [4, 9, 7] (by decide) (by decide)).1

/-- C13. `removeExpiredRequests` is idempotent: for every limiter, key and reading
`now`, two calls in a row at `now` leave the limiter that one call leaves. -/
theorem removeExpiredRequests_idempotent (r : RateLimiter) (key : String) (now : Time) :
    removeExpiredRequests (removeExpiredRequests r key now) key now
      = removeExpiredRequests r key now := by
  cases h : r.RequestMap.Load key with
  | none =>
    rw [removeExpiredRequests_none r key now h, removeExpiredRequests_none r key now h]
  | some v =>
    cases v with
    | other tag =>
      rw [removeExpiredRequests_other r key now tag h, removeExpiredRequests_other r key now tag h]
    | stamps xs =>
      rw [removeExpiredRequests_stamps r key now xs h]
      rw [removeExpiredRequests_stamps _ key now _ (Store_same _ _ _)]
      simp only [Store_Store, filter_filter_of_le _ _ (le_refl (window now r.Duration)) xs]

/-- Counterexample to C14: `NewRateLimiter(0, 0)` does not panic; it returns a limiter,
and the misconfiguration shows only in the calls that follow (one admitted, then
rejections). -/
theorem NewRateLimiter_reports_misuse_counterexample :
    ((0 : Int) ≤ 0 ∨ (Duration.ofInt 0).ns ≤ 0) ∧
    NewRateLimiterCall 0 (Duration.ofInt 0) ≠ Outcome.panicked ∧
    (runAllow (NewRateLimiter 0 (Duration.ofInt 0)) [("user1", 0), ("user1", 1), ("user1", 2)]).1
      = [true, false, false] :=
  ⟨by decide, fun h => Outcome.noConfusion h, by decide⟩

/-- C14, amended. `NewRateLimiter` checks nothing and never fails: for every limit and
every duration, non-positive ones included, the call returns a limiter with an empty
map whose `Limit` and `Duration` are the arguments. -/
theorem NewRateLimiter_always_returns (limit : Int) (duration : Duration) :
    ∃ r, NewRateLimiterCall limit duration = Outcome.returned r ∧
      r.Limit = limit ∧ r.Duration = duration ∧ ∀ key, r.RequestMap.Load key = none :=
  ⟨NewRateLimiter limit duration, rfl, rfl, rfl, fun _ => rfl⟩

/-- C15. Fail-safe on a malformed stored value: for a key whose stored value is not a
`RequestTimeStamps`, `AllowRequest` returns `false`, `removeExpiredRequests` does
nothing, and both leave the limiter, the malformed value included, unchanged. -/
theorem malformed_value_fail_safe (r : RateLimiter) (key : String) (now : Time) (tag : Nat)
    (h : r.RequestMap.Load key = some (Value.other tag)) :
    (AllowRequest r key now).1 = false ∧
    (AllowRequest r key now).2 = r ∧
    removeExpiredRequests r key now = r ∧
    (AllowRequest r key now).2.RequestMap.Load key = some (Value.other tag) ∧
    (removeExpiredRequests r key now).RequestMap.Load key = some (Value.other tag) := by
  rw [AllowRequest_other r key now tag h, removeExpiredRequests_other r key now tag h]
  exact ⟨rfl, rfl, rfl, h, h⟩

/-- Witness of C15: a limiter whose key `user1` holds a value of another type. -/
theorem malformed_value_fail_safe_witness :
    (AllowRequest ⟨(NewRateLimiter 3 (Duration.ofInt 10)).RequestMap.Store "user1" (Value.other 0),
      3, Duration.ofInt 10⟩ "user1" 5).1 = false :=
  (malformed_value_fail_safe
    ⟨(NewRateLimiter 3 (Duration.ofInt 10)).RequestMap.Store "user1" (Value.other 0), 3,
      Duration.ofInt 10⟩ "user1" 5 0 (by decide)).1

/-- C16. Same-key lost-update race: for a key holding a sequence `xs` with exactly one
free slot (`len(xs) + 1 = Limit`) and nothing to prune, two concurrent `AllowRequest`
calls on that key have an interleaving of their map `Load` and `Store` steps in which
both calls load `xs`, both return `true`, and the second `Store` overwrites the first:
the stored sequence is `xs` followed by the second timestamp only. Two requests were
admitted on top of `xs`, one more than `Limit` allows. -/
theorem AllowRequest_lost_update_race (r : RateLimiter) (key : String)
    (xs : RequestTimeStamps) (t1 t2 : Time)
    (h : r.RequestMap.Load key = some (Value.stamps xs))
    (hfree : (xs.length : Int) + 1 = r.Limit)
    (hlive1 : ∀ ts ∈ xs, window t1 r.Duration < ts)
    (hlive2 : ∀ ts ∈ xs, window t2 r.Duration < ts) :
    ∃ before after : List Who,
      (runRace r.Limit r.Duration key t1 t2 ⟨r.RequestMap, Pc.start, Pc.start⟩ before).first
        = Pc.loaded (some (Value.stamps xs)) ∧
      (runRace r.Limit r.Duration key t1 t2 ⟨r.RequestMap, Pc.start, Pc.start⟩ before).second
        = Pc.loaded (some (Value.stamps xs)) ∧
      (runRace r.Limit r.Duration key t1 t2 ⟨r.RequestMap, Pc.start, Pc.start⟩
        (before ++ after)).first = Pc.done true ∧
      (runRace r.Limit r.Duration key t1 t2 ⟨r.RequestMap, Pc.start, Pc.start⟩
        (before ++ after)).second = Pc.done true ∧
      (runRace r.Limit r.Duration key t1 t2 ⟨r.RequestMap, Pc.start, Pc.start⟩
        (before ++ after)).RequestMap.Load key = some (Value.stamps (xs ++ [t2])) ∧
      r.Limit < (xs.length : Int) + 2 := by
  have hlt : (xs.length : Int) < r.Limit := by omega
  refine ⟨[Who.first, Who.first, Who.first, Who.second, Who.second, Who.second],
    [Who.first, Who.second], ?_, ?_, ?_, ?_, ?_, by omega⟩ <;>
  simp only [runRace, List.cons_append, List.nil_append, List.foldl_cons, List.foldl_nil,
    raceStep, callStep_start, callStep_pruned, h,
    callStep_pruneLoaded_live r.Limit r.Duration key t1 r.RequestMap xs h hlive1,
    callStep_pruneLoaded_live r.Limit r.Duration key t2 r.RequestMap xs h hlive2,
    callStep_loaded_free r.Limit r.Duration key _ _ xs hlt, Store_same]

/-- Witness of C16: limit 2, window 10, `user1` holds `[5]`; calls at 6 and 7. -/
theorem AllowRequest_lost_update_race_witness :
    ∃ before after : List Who,
      (runRace 2 (Duration.ofInt 10) "user1" 6 7
        ⟨(seeded 2 (Duration.ofInt 10) "user1" [5]).RequestMap, Pc.start, Pc.start⟩ before).first
        = Pc.loaded (some (Value.stamps [5])) ∧
      (runRace 2 (Duration.ofInt 10) "user1" 6 7
        ⟨(seeded 2 (Duration.ofInt 10) "user1" [5]).RequestMap, Pc.start, Pc.start⟩ before).second
        = Pc.loaded (some (Value.stamps [5])) ∧
      (runRace 2 (Duration.ofInt 10) "user1" 6 7
        ⟨(seeded 2 (Duration.ofInt 10) "user1" [5]).RequestMap, Pc.start, Pc.start⟩
        (before ++ after)).first = Pc.done true ∧
      (runRace 2 (Duration.ofInt 10) "user1" 6 7
        ⟨(seeded 2 (Duration.ofInt 10) "user1" [5]).RequestMap, Pc.start, Pc.start⟩
        (before ++ after)).second = Pc.done true ∧
      (runRace 2 (Duration.ofInt 10) "user1" 6 7
        ⟨(seeded 2 (Duration.ofInt 10) "user1" [5]).RequestMap, Pc.start, Pc.start⟩
        (before ++ after)).RequestMap.Load "user1" = some (Value.stamps [5, 7]) ∧
      (2 : Int) < (([5] : List Time).length : Int) + 2 :=
  AllowRequest_lost_update_race (seeded 2 (Duration.ofInt 10) "user1" [5]) "user1" [5] 6 7
    (by decide) (by decide) (by decide) (by decide)

/-- Counterexample to C17: the slice `[0, 7, 3, 9]` is stored under `user1` and under
`user2`, window 10. `removeExpiredRequests("user1")` at 13 compacts the array in place,
and `user2`, a key other than `user1`, then holds `[7, 9, 3, 9]`. -/
theorem operations_frame_counterexample :
    mem.WellFormed
      (mem.shared 1 (Duration.ofInt 10) [0, 7, 3, 9] ⟨0, 0, 4, 4⟩ ⟨0, 0, 4, 4⟩) ∧
    "user2" ≠ "user1" ∧
    mem.contents (mem.shared 1 (Duration.ofInt 10) [0, 7, 3, 9] ⟨0, 0, 4, 4⟩ ⟨0, 0, 4, 4⟩)
      "user2" = some (Value.stamps [0, 7, 3, 9]) ∧
    mem.contents (mem.removeExpiredRequests
      (mem.shared 1 (Duration.ofInt 10) [0, 7, 3, 9] ⟨0, 0, 4, 4⟩ ⟨0, 0, 4, 4⟩) "user1" 13)
      "user2" = some (Value.stamps [7, 9, 3, 9]) :=
  ⟨mem_shared_wf _ _ _ _ _ (by decide) (by decide) (by decide) (by decide) rfl rfl, by decide, by decide,
    by decide⟩

/-- C17, amended. Frame of both operations, for every limiter in which the slice stored
under `k` shares its backing array with no slice stored under another key (each slice
lying inside its array, as a Go slice does): at every reading, `AllowRequest(k)` and `removeExpiredRequests(k)` leave `Limit` and `Duration`
as they are, and leave the value held by every key other than `k` as it is (the same
header and the same sequence for a present key, absence for an absent one). -/
theorem operations_frame_own_array (grow : Nat → Nat) (r : mem.RateLimiter)
    (hwf : mem.WellFormed r) (k : String) (hown : mem.OwnArray r k) (now : Time) :
    ((mem.AllowRequest grow r k now).2.Limit = r.Limit ∧
      (mem.AllowRequest grow r k now).2.Duration = r.Duration ∧
      ∀ key, key ≠ k →
        (mem.AllowRequest grow r k now).2.RequestMap.Load key = r.RequestMap.Load key ∧
        mem.contents (mem.AllowRequest grow r k now).2 key = mem.contents r key) ∧
    ((mem.removeExpiredRequests r k now).Limit = r.Limit ∧
      (mem.removeExpiredRequests r k now).Duration = r.Duration ∧
      ∀ key, key ≠ k →
        (mem.removeExpiredRequests r k now).RequestMap.Load key = r.RequestMap.Load key ∧
        mem.contents (mem.removeExpiredRequests r k now) key = mem.contents r key) := by
  have fa := mem_AllowRequest_frame grow r k now
  have fp := mem_removeExpiredRequests_frame r k now
  have ea := (mem_AllowRequest_abs grow r k now hwf hown).2
  have ep := mem_removeExpiredRequests_abs r k now hwf hown
  refine ⟨⟨fa.1, fa.2.1, fun key hk => ⟨fa.2.2 key hk, ?_⟩⟩,
    ⟨fp.1, fp.2.1, fun key hk => ⟨fp.2.2.2.2 key hk, ?_⟩⟩⟩
  · have h1 : (mem.abs (mem.AllowRequest grow r k now).2).RequestMap.Load key
        = (mem.abs r).RequestMap.Load key := by
      rw [ea]; exact (AllowRequest_frame (mem.abs r) k now).2.2 key hk
    exact h1
  · have h1 : (mem.abs (mem.removeExpiredRequests r k now)).RequestMap.Load key
        = (mem.abs r).RequestMap.Load key := by
      rw [ep]; exact (removeExpiredRequests_frame (mem.abs r) k now).2.2 key hk
    exact h1

/-- Witness of C17: from the limiter of `NewRateLimiter` after one call on `user1`, a
call on `user2` leaves the sequence of `user1` as it is. -/
theorem operations_frame_own_array_witness :
    mem.contents (mem.AllowRequest (fun c => 2 * c)
      (mem.AllowRequest (fun c => 2 * c) (mem.NewRateLimiter [] 2 (Duration.ofInt 10))
        "user1" 5).2 "user2" 100).2 "user1" = some (Value.stamps [5]) :=
  (((operations_frame_own_array (fun c => 2 * c)
    (mem.AllowRequest (fun c => 2 * c) (mem.NewRateLimiter [] 2 (Duration.ofInt 10))
      "user1" 5).2
    (mem_AllowRequest_inv (fun c => 2 * c) (mem.NewRateLimiter [] 2 (Duration.ofInt 10)) "user1" 5
      (mem_NewRateLimiter_inv [] 2 (Duration.ofInt 10)).1
      (mem_NewRateLimiter_inv [] 2 (Duration.ofInt 10)).2).1
    "user2"
    ((mem_AllowRequest_inv (fun c => 2 * c) (mem.NewRateLimiter [] 2 (Duration.ofInt 10)) "user1" 5
      (mem_NewRateLimiter_inv [] 2 (Duration.ofInt 10)).1
      (mem_NewRateLimiter_inv [] 2 (Duration.ofInt 10)).2).2 "user2")
    100).1.2.2 "user1" (by decide)).2).trans (by decide)

/-- C18. Reachable-state length bound: with `Limit = N >= 1`, in every limiter reached
from the empty limiter of `NewRateLimiter` by `AllowRequest` and `removeExpiredRequests`
calls executed one after another (any keys, any times), every stored timestamp sequence
has at most `N` entries; and in every limiter the sequence of a key grows by at most one
entry in an `AllowRequest` call and does not grow in `removeExpiredRequests` (an absent
key counts as length 0). -/
theorem reachable_length_bound (N : Nat) (hN : 1 ≤ N) (w : Duration) (calls : List Call) :
    (∀ key xs, (runCalls (NewRateLimiter N w) calls).2.RequestMap.Load key
        = some (Value.stamps xs) → xs.length ≤ N) ∧
    (∀ (r : RateLimiter) (k key : String) (now : Time),
      (stampsOf ((AllowRequest r k now).2.RequestMap.Load key)).length
        ≤ (stampsOf (r.RequestMap.Load key)).length + 1 ∧
      (stampsOf ((removeExpiredRequests r k now).RequestMap.Load key)).length
        ≤ (stampsOf (r.RequestMap.Load key)).length) := by
  refine ⟨fun key xs h => ?_, fun r k key now =>
    ⟨allow_length_le_succ r k key now, prune_length_le r k key now⟩⟩
  have hb := runCalls_length_bound N hN calls (NewRateLimiter N w) rfl
    (fun _ => Nat.zero_le _) key
  rw [h] at hb
  exact hb

/-- Witness of C18: limit 2, window 10; after six calls `user1` holds `[10, 15]`. -/
theorem reachable_length_bound_witness :
    (runCalls (NewRateLimiter 2 (Duration.ofInt 10))
      [Call.allow "user1" 0, Call.allow "user1" 5, Call.allow "user1" 10, Call.allow "user1" 10,
        Call.prune "user1" 12, Call.allow "user1" 15]).2.RequestMap.Load "user1"
      = some (Value.stamps [10, 15]) ∧ ([10, 15] : List Time).length ≤ 2 :=
  ⟨by decide,
   (reachable_length_bound 2 (by decide) (Duration.ofInt 10)
    [Call.allow "user1" 0, Call.allow "user1" 5, Call.allow "user1" 10, Call.allow "user1" 10,
      Call.prune "user1" 12, Call.allow "user1" 15]).1 "user1" [10, 15] (by decide)⟩

/-- C19. The first request on a fresh key ignores the limit: in every limiter, also one
with `Limit <= 0`, `AllowRequest` on a key absent from the map returns `true` and stores
the one-element sequence `[now]`, whose length exceeds a `Limit <= 0`; and once the key
is present, a limiter with `Limit <= 0` rejects every request on it. -/
theorem AllowRequest_first_request_ignores_limit (r : RateLimiter) (key : String) (now : Time) :
    (r.RequestMap.Load key = none →
      (AllowRequest r key now).1 = true ∧
      (AllowRequest r key now).2.RequestMap.Load key = some (Value.stamps [now]) ∧
      (r.Limit ≤ 0 → (AllowRequest r key now).2.Limit < (([now] : List Time).length : Int))) ∧
    (r.Limit ≤ 0 → ∀ v, r.RequestMap.Load key = some v → (AllowRequest r key now).1 = false) := by
  constructor
  · intro h
    rw [AllowRequest_absent r key now h]
    refine ⟨rfl, Store_same _ _ _, fun hL => ?_⟩
    simp only [List.length_singleton, Nat.cast_one]
    omega
  · intro hL v h
    cases v with
    | other tag => rw [AllowRequest_other r key now tag h]
    | stamps xs =>
      rw [AllowRequest_stamps r key now xs h, if_neg]
      have : (0 : Int) ≤ ((xs.filter (fun ts => decide (window now r.Duration < ts))).length : Int) :=
        Int.ofNat_nonneg _
      omega

/-- Witness of C19: `NewRateLimiter(0, 10)`; the first call on `user1` is admitted and
the next one, on the now present key, is rejected. -/
theorem AllowRequest_first_request_ignores_limit_witness :
    (AllowRequest (NewRateLimiter 0 (Duration.ofInt 10)) "user1" 0).1 = true ∧
    (AllowRequest (AllowRequest (NewRateLimiter 0 (Duration.ofInt 10)) "user1" 0).2 "user1"
      0).1 = false :=
  ⟨((AllowRequest_first_request_ignores_limit (NewRateLimiter 0 (Duration.ofInt 10)) "user1"
      0).1 (by decide)).1,
   (AllowRequest_first_request_ignores_limit
      (AllowRequest (NewRateLimiter 0 (Duration.ofInt 10)) "user1" 0).2 "user1" 0).2
      (by decide) (Value.stamps [0]) (by decide)⟩

end rate_limiter
